import Mathlib

/-!
pcopy / psha1sum: a shallow embedding

Two Go programs, `pcopy.go` and `psha1sum.go`, enumerate the regular files at the
top level of a directory and process them with a pool of goroutines.  This file
embeds their code in Lean and proves properties of the embedding.

Conventions:
* a byte is a `Nat` below 256, a file's content a `List Nat`;
* a Go `int` is an `Int` (no arithmetic in the programs can overflow: the only
  arithmetic is the loop counter `i++`, bounded by the clamped worker count);
* `log.Fatal` and a run-time panic end the process: they are the `Except.error` case.
-/

namespace PCopy

/-! ## crypto/sha1 (FIPS 180-4), the function behind `sha1.New()` / `h.Sum(nil)` -/

/-- The 32-bit word modulus. -/
def w32 : Nat := 2 ^ 32

/-- The function `bits.RotateLeft32`. -/
def rotl32 (x k : Nat) : Nat :=
  ((x <<< k) ||| (x >>> (32 - k))) % w32

/-- Big-endian bytes of a 32-bit word. -/
def be32 (x : Nat) : List Nat :=
  [(x >>> 24) % 256, (x >>> 16) % 256, (x >>> 8) % 256, x % 256]

/-- Big-endian bytes of a 64-bit word (`binary.BigEndian.PutUint64`). -/
def be64 (x : Nat) : List Nat :=
  be32 ((x >>> 32) % w32) ++ be32 (x % w32)

/-- The padding appended by `checkSum`: one byte 0x80, zeros up to 56 mod 64, then
the bit length as a 64-bit big-endian integer. -/
def sha1Pad (len : Nat) : List Nat :=
  let t := if len % 64 < 56 then 56 - len % 64 else 64 + 56 - len % 64
  0x80 :: List.replicate (t - 1) 0 ++ be64 ((len <<< 3) % 2 ^ 64)

/-- Sixteen big-endian words of one 64-byte block. -/
def blockWords : Nat → List Nat → List Nat
  | 0, _ => []
  | k + 1, b0 :: b1 :: b2 :: b3 :: rest =>
      ((b0 % 256) <<< 24 ||| (b1 % 256) <<< 16 ||| (b2 % 256) <<< 8 ||| (b3 % 256))
        :: blockWords k rest
  | _ + 1, _ => []

/-- The message schedule, newest word first: `k` further words are derived from the
sixteen before them. -/
def extendSchedule : Nat → List Nat → List Nat
  | 0, w => w
  | k + 1, w =>
      let tmp := w.getD 2 0 ^^^ w.getD 7 0 ^^^ w.getD 13 0 ^^^ w.getD 15 0
      extendSchedule k (rotl32 tmp 1 :: w)

/-- The five chaining words. -/
structure Digest where
  h0 : Nat
  h1 : Nat
  h2 : Nat
  h3 : Nat
  h4 : Nat
  deriving DecidableEq, Repr

/-- The initial chaining value (`init0 .. init4`). -/
def sha1Init : Digest :=
  ⟨0x67452301, 0xEFCDAB89, 0x98BADCFE, 0x10325476, 0xC3D2E1F0⟩

/-- Round function and constant of round `i`. -/
def roundFK (i b c d : Nat) : Nat × Nat :=
  if i < 20 then ((b &&& c) ||| ((b ^^^ 0xFFFFFFFF) &&& d), 0x5A827999)
  else if i < 40 then (b ^^^ c ^^^ d, 0x6ED9EBA1)
  else if i < 60 then (((b ||| c) &&& d) ||| (b &&& c), 0x8F1BBCDC)
  else (b ^^^ c ^^^ d, 0xCA62C1D6)

/-- The eighty rounds over the schedule `ws` (oldest word first), from round `i`. -/
def rounds : List Nat → Nat → Digest → Digest
  | [], _, s => s
  | w :: ws, i, s =>
      let fk := roundFK i s.h1 s.h2 s.h3
      let t := (rotl32 s.h0 5 + fk.1 + s.h4 + w + fk.2) % w32
      rounds ws (i + 1) ⟨t, s.h0, rotl32 s.h1 30, s.h2, s.h3⟩

/-- One call of the block function on a 64-byte block. -/
def sha1Block (s : Digest) (block : List Nat) : Digest :=
  let ws := (extendSchedule 64 (blockWords 16 block).reverse).reverse
  let r := rounds ws 0 s
  ⟨(s.h0 + r.h0) % w32, (s.h1 + r.h1) % w32, (s.h2 + r.h2) % w32,
   (s.h3 + r.h3) % w32, (s.h4 + r.h4) % w32⟩

/-- The block loop `for len(p) >= chunk`, over `n` blocks. -/
def sha1Blocks : Nat → Digest → List Nat → Digest
  | 0, s, _ => s
  | n + 1, s, p => sha1Blocks n (sha1Block s (p.take 64)) (p.drop 64)

/-- The SHA-1 digest (20 bytes) of a byte string. -/
def sha1 (msg : List Nat) : List Nat :=
  let p := msg ++ sha1Pad msg.length
  let s := sha1Blocks (p.length / 64) sha1Init p
  be32 s.h0 ++ be32 s.h1 ++ be32 s.h2 ++ be32 s.h3 ++ be32 s.h4

/-- The digit table of `fmt`: `ldigits`. -/
def ldigits : List Char :=
  ['0', '1', '2', '3', '4', '5', '6', '7', '8', '9', 'a', 'b', 'c', 'd', 'e', 'f']

/-- One lower-case hexadecimal digit. -/
def hexDigit (d : Nat) : Char := ldigits.getD (d % 16) '0'

/-- The verb `%x` of `fmt.Sprintf` on a byte slice: two lower-case digits per byte. -/
def hexEncode (bs : List Nat) : String :=
  String.mk (bs.flatMap fun c => [hexDigit ((c % 256) >>> 4), hexDigit (c &&& 0xF)])

/-- A lower-case hexadecimal digit: `0-9` or `a-f`. -/
def isLowerHex (c : Char) : Bool :=
  ('0' ≤ c && c ≤ '9') || ('a' ≤ c && c ≤ 'f')

/-- The string `fmt.Sprintf("%x", h.Sum(nil))` once `data` has been written to `h`. -/
def sha1Hex (data : List Nat) : String := hexEncode (sha1 data)

deriving instance DecidableEq for Except

/-! ## The file system seen through package `os`

A path leads to a file, or to the free place where `os.Create` would make one; several
paths can lead to the same file: other spellings (`src//a.txt`), a symbolic link and its
target, two hard links.  The programs create regular files only, so where a path leads
never changes during a run; what changes is the node found there.  Nothing but the
program modifies the file system while it runs. -/

/-- A node: the mode bits reported by `Lstat`, its bytes, the names it lists when it is
a directory, and an optional offset at which the device fails to deliver data. -/
structure Node where
  mode : Nat
  data : List Nat
  names : List String
  fault : Option Nat
  deriving DecidableEq, Repr

/-- A file system.
* `key p`: the file or free place the path `p` leads to when symbolic links are
  followed, as `open` does; paths with the same key name the same file;
* `lkey p`: the same when a symbolic link in the last component is not followed, as
  `lstat` does;
* `files k`: the node at `k`, if any. -/
structure FS where
  key : String → String
  lkey : String → String
  files : String → Option Node

/-- The node `os.Open` and `os.Create` find at `path`. -/
def FS.node (fs : FS) (path : String) : Option Node := fs.files (fs.key path)

/-- The node `os.Lstat` finds at `path`. -/
def FS.lnode (fs : FS) (path : String) : Option Node := fs.files (fs.lkey path)

/-- What of a node a reader and `Lstat` can observe: mode, bytes and fault. -/
def Node.content (nd : Node) : Nat × List Nat × Option Nat := (nd.mode, nd.data, nd.fault)

/-- The bit `os.ModeDir`. -/
def ModeDir : Nat := 1 <<< 31
/-- The bit `os.ModeSymlink`. -/
def ModeSymlink : Nat := 1 <<< 27
/-- The bit `os.ModeDevice`. -/
def ModeDevice : Nat := 1 <<< 26
/-- The bit `os.ModeNamedPipe`. -/
def ModeNamedPipe : Nat := 1 <<< 25
/-- The bit `os.ModeSocket`. -/
def ModeSocket : Nat := 1 <<< 24
/-- The bit `os.ModeCharDevice`. -/
def ModeCharDevice : Nat := 1 <<< 21
/-- The bit `os.ModeIrregular`. -/
def ModeIrregular : Nat := 1 <<< 19
/-- The mask `os.ModeType`. -/
def ModeType : Nat :=
  ModeDir ||| ModeSymlink ||| ModeNamedPipe ||| ModeSocket ||| ModeDevice |||
    ModeCharDevice ||| ModeIrregular

/-- The method `FileMode.IsRegular`: `m&ModeType == 0`. -/
def IsRegular (m : Nat) : Bool := m &&& ModeType == 0

/-- The method `FileMode.IsDir`: `m&ModeDir != 0`. -/
def IsDir (m : Nat) : Bool := m &&& ModeDir != 0

/-- How a run stops early: `log.Fatal`, a run-time panic, or a loop of the model that
used up its iteration budget. -/
inductive Stop where
  | fatal (msg : String)
  | panic (msg : String)
  | fuel
  deriving DecidableEq, Repr

/-- First loop of `os.basename` on the reversed name: remove trailing slashes while
more than one character is left. -/
def dropSlashes : List Char → List Char
  | c :: d :: rest => if c = '/' then dropSlashes (d :: rest) else c :: d :: rest
  | l => l

/-- The function `os.basename`: removes trailing slashes and the leading directory
name.  The second loop starts below the last character, which is kept in any case. -/
def basename (name : String) : String :=
  match dropSlashes name.data.reverse with
  | [] => ""
  | c :: rest => String.mk ((rest.takeWhile (fun x => x != '/')).reverse ++ [c])

/-- The directory part of a path: what precedes its last slash, if it has one. -/
def parentOf (path : String) : Option String :=
  let r := path.data.reverse
  if '/' ∈ r then some (String.mk (r.dropWhile (fun x => x != '/')).tail.reverse) else none

/-- A name a directory can list: not empty and without a slash. -/
abbrev validName (name : String) : Prop := name.data ≠ [] ∧ '/' ∉ name.data

/-- What `Lstat` returns, as far as the programs read it. -/
structure FileInfo where
  name : String
  mode : Nat
  deriving DecidableEq, Repr

/-- The call `os.Open(path)`: fails when nothing is at `path`. -/
def osOpen (fs : FS) (path : String) : Except String Node :=
  match fs.node path with
  | some nd => .ok nd
  | none => .error ("open " ++ path ++ ": no such file or directory")

/-- The call `d.Readdirnames(0)` on the result of `os.Open(dir)`, whose error was
dropped: a nil file and a file that is no directory both give an error. -/
def readdirnames (fs : FS) (dir : String) : Except String (List String) :=
  match osOpen fs dir with
  | .error _ => .error "invalid argument"
  | .ok nd => if IsDir nd.mode then .ok nd.names else .error ("readdirent " ++ dir ++ ": not a directory")

/-- The call `os.Lstat(path)`: the node itself, never what a link points to. -/
def osLstat (fs : FS) (path : String) : Except String FileInfo :=
  match fs.lnode path with
  | some nd => .ok ⟨basename path, nd.mode⟩
  | none => .error ("lstat " ++ path ++ ": no such file or directory")

/-- The file system with `nd` at the key `k`. -/
def FS.set (fs : FS) (k : String) (nd : Node) : FS :=
  ⟨fs.key, fs.lkey, fun q => if q = k then some nd else fs.files q⟩

/-- Registers `path` in its directory, when it names one. -/
def FS.link (fs : FS) (path : String) : FS :=
  match parentOf path with
  | none => fs
  | some d =>
    match fs.node d with
    | some dn => fs.set (fs.key d) ⟨dn.mode, dn.data, dn.names ++ [(basename path)], dn.fault⟩
    | none => fs

/-- The call `os.Create(path)`, that is `OpenFile(path, O_RDWR|O_CREATE|O_TRUNC, 0666)`:
the file the path leads to is emptied, under whatever name it was reached; a
directory is refused; where there is no file a regular one is made, which needs its
directory to exist. -/
def osCreate (fs : FS) (path : String) : Except String FS :=
  match fs.node path with
  | some nd =>
    if IsDir nd.mode then .error ("open " ++ path ++ ": is a directory")
    else .ok (fs.set (fs.key path) ⟨nd.mode, [], nd.names, nd.fault⟩)
  | none =>
    match parentOf path with
    | none => .ok (fs.set (fs.key path) ⟨0o666, [], [], none⟩)
    | some d =>
      match fs.node d with
      | none => .error ("open " ++ path ++ ": no such file or directory")
      | some dn =>
        if IsDir dn.mode then .ok ((fs.link path).set (fs.key path) ⟨0o666, [], [], none⟩)
        else .error ("open " ++ path ++ ": not a directory")

/-- Outcome of one `Read` on an open file. -/
inductive ReadResult where
  | bytes (bs : List Nat)
  | eof
  | err (msg : String)
  deriving DecidableEq, Repr

/-- The call `f.Read(buf)` with `len(buf) = len` at file offset `off`: a directory
cannot be read, the end of the data is `io.EOF`, and a faulty device delivers the
bytes before the fault and then fails. -/
def fileRead (fs : FS) (path : String) (off len : Nat) : ReadResult :=
  match fs.node path with
  | none => .err "file already closed"
  | some nd =>
    if IsDir nd.mode then .err ("read " ++ path ++ ": is a directory")
    else if nd.data.length ≤ off then .eof
    else match nd.fault with
      | none => .bytes ((nd.data.drop off).take len)
      | some k =>
        if k ≤ off then .err ("read " ++ path ++ ": input/output error")
        else .bytes (((nd.data.take k).drop off).take len)

/-- The call `f.Write(bs)` on the file opened by `os.Create`: the handle is the only
writer and starts at offset 0 of an empty file, so every write to a regular file
appends.  A node that is no regular file (a device such as `/dev/null`) accepts the
bytes and keeps none. -/
def fileWrite (fs : FS) (path : String) (bs : List Nat) : FS :=
  match fs.node path with
  | none => fs
  | some nd =>
    if IsRegular nd.mode then fs.set (fs.key path) ⟨nd.mode, nd.data ++ bs, nd.names, nd.fault⟩
    else fs

/-- The bytes a reader of the node obtains before the end of the data or the fault. -/
def avail (nd : Node) : List Nat :=
  match nd.fault with
  | none => nd.data
  | some k => nd.data.take k

/-- What ends the reads of a node: `io.EOF` when all its data was delivered, the
device error otherwise. -/
def lastRead (path : String) (nd : Node) : Option String :=
  if (avail nd).length = nd.data.length then none
  else some ("read " ++ path ++ ": input/output error")

/-- Size of the buffer `io.Copy` allocates: 32 KiB. -/
def copyBufSize : Nat := 32 * 1024

/-- The loop of `io.Copy(dst, src)`: read up to a buffer, write what was read, stop
at `io.EOF` (no error) or at the first read error.  The state `s` holds whatever the
reader and the writer act on; `written` is both the byte count returned and the
offset of the next read.  The result is `none` when `fuel` iterations did not reach
the end. -/
def ioCopy {σ : Type} (read : σ → Nat → ReadResult) (write : σ → List Nat → σ) :
    Nat → σ → Nat → Option (σ × Nat × Option String)
  | 0, _, _ => none
  | fuel + 1, s, written =>
    match read s written with
    | .bytes bs => ioCopy read write fuel (write s bs) (written + bs.length)
    | .eof => some (s, written, none)
    | .err e => some (s, written, some e)

/-- Number of bytes at `path` (0 when there is nothing). -/
def sizeAt (fs : FS) (path : String) : Nat :=
  match fs.node path with
  | some nd => nd.data.length
  | none => 0

/-! ## filesIn (both programs) -/

/-- The loop `for _, name := range names` of `filesIn`, `acc` being `fs` so far. -/
def filesInLoop (fs : FS) (dir : String) : List String → List String → Except Stop (List String)
  | [], acc => .ok acc
  | name :: rest, acc =>
    match osLstat fs (dir ++ "/" ++ name) with
    | .error e => .error (.fatal ("filesIn: " ++ e))
    | .ok finfo =>
      if IsRegular finfo.mode then filesInLoop fs dir rest (acc ++ [finfo.name])
      else filesInLoop fs dir rest acc

/-- The function `filesIn`: the list of files in the top level of `dir`. -/
def filesIn (fs : FS) (dir : String) : Except Stop (List String) :=
  match readdirnames fs dir with
  | .error e => .error (.fatal ("filesIn: " ++ e))
  | .ok names => filesInLoop fs dir names []

/-! ## sha1Sum (psha1sum.go) and copyAndSha1Sum (pcopy.go) -/

/-- The function `sha1Sum`: the SHA-1 sum of the file as a string.  A failed `Open`
is fatal; an error of `io.Copy` is only printed with `log.Println`, and the sum of
what was read until then is returned.  The hash `h` is the list of bytes written to
it, `h.Sum(nil)` their SHA-1 digest. -/
def sha1Sum (fs : FS) (filename : String) : Except Stop String :=
  match osOpen fs filename with
  | .error e => .error (.fatal ("sha1Sum: " ++ e))
  | .ok _ =>
    match ioCopy (fun (_ : List Nat) off => fileRead fs filename off copyBufSize)
        (fun h bs => h ++ bs) (sizeAt fs filename + 1) [] 0 with
    | none => .error .fuel
    | some (h, _, _) => .ok (sha1Hex h)

/-- The function `copyAndSha1Sum`: copies the file from `srcName` to `destName` and
computes the SHA-1 sum of the bytes copied; returns the number of bytes written and
the checksum, together with the file system it leaves.  The writer is
`io.MultiWriter(dest, h)`: each chunk goes to the destination file, then to the hash. -/
def copyAndSha1Sum (fs : FS) (srcName destName : String) : Except Stop ((Nat × String) × FS) :=
  match osOpen fs srcName with
  | .error e => .error (.fatal ("copyAndSha1Sum: " ++ e))
  | .ok _ =>
    match osCreate fs destName with
    | .error e => .error (.fatal ("copyAndSha1Sum: " ++ e))
    | .ok fs1 =>
      match ioCopy (fun (s : FS × List Nat) off => fileRead s.1 srcName off copyBufSize)
          (fun s bs => (fileWrite s.1 destName bs, s.2 ++ bs))
          (sizeAt fs1 srcName + 1) (fs1, []) 0 with
      | none => .error .fuel
      | some (_, _, some e) => .error (.fatal ("copyAndSha1Sum: " ++ e))
      | some ((fs2, h), bytesWritten, none) => .ok ((bytesWritten, sha1Hex h), fs2)

/-- Whether `Lstat` of the entry `name` of `dir` reports a regular file. -/
def lstatRegular (fs : FS) (dir name : String) : Bool :=
  match fs.lnode (dir ++ "/" ++ name) with
  | some nd => IsRegular nd.mode
  | none => false

/-! ## main: worker count, channels, goroutines -/

/-- The package variable `maxWorkers`. -/
def maxWorkers : Int := 30

/-- Lines 34-37 of pcopy.go, 32-35 of psha1sum.go: the value of `*numWorkers` after
`if *numWorkers > 30 { *numWorkers = maxWorkers }`. -/
def clampWorkers (numWorkers : Int) : Int :=
  if numWorkers > 30 then maxWorkers else numWorkers

/-- The call `make(chan string, size)`: the capacity of the channel; a negative size
is the run-time panic "makechan: size out of range". -/
def makeChan (size : Int) : Except Stop Nat :=
  if size < 0 then .error (.panic "makechan: size out of range") else .ok size.toNat

/-- A worker goroutine: blocked in `range todo`, holding a file name it received,
holding the line it is about to send on `results`, or returned. -/
inductive Worker where
  | idle
  | busy (f : String)
  | sending (line : String)
  | done
  deriving DecidableEq, Repr

/-- The loop `for i := 0; i < *numWorkers; i++ { wg.Add(1); go func(id int) ... }`:
the goroutines started, each at its `range todo`. -/
def startWorkers (numWorkers : Int) : Nat → Int → List Worker → List Worker
  | 0, _, ws => ws
  | fuel + 1, i, ws =>
    if i < numWorkers then startWorkers numWorkers fuel (i + 1) (ws ++ [Worker.idle]) else ws

/-- The goroutines and channels of `main`, over a world `σ` the workers act on.
* `feeder`: the names the feeding goroutine has still to send on `todo`;
* `todoClosed`: `close(todo)` was executed;
* `cap`, `results`: capacity and buffered lines of the channel `results`;
* `resultsClosed`: `wg.Wait()` returned and `close(results)` was executed;
* `output`: the lines printed by `main`, in order;
* `finished`: the loop `for line := range results` of `main` has ended;
* `stopped`: a goroutine called `log.Fatal`. -/
structure Pipe (σ : Type) where
  world : σ
  feeder : List String
  todoClosed : Bool
  workers : List Worker
  cap : Nat
  results : List String
  resultsClosed : Bool
  output : List String
  finished : Bool
  stopped : Option Stop

/-- The state `main` leaves once every goroutine is started. -/
def Pipe.init {σ : Type} (w : σ) (files : List String) (workers : List Worker) (cap : Nat) :
    Pipe σ :=
  ⟨w, files, false, workers, cap, [], false, [], false, none⟩

/-- One atomic step of one goroutine.
* `send i`: `todo <- f` meets the receive of worker `i` (the channel is unbuffered);
* `closeTodo`: the feeder leaves its loop and closes `todo`;
* `work i`: worker `i` runs the per-file operation and formats its line (the whole
  operation is one step);
* `result i`: worker `i` sends its line on `results`;
* `exit i`: worker `i` finds `todo` closed, leaves `range todo`, `wg.Done()` runs;
* `closeResults`: `wg.Wait()` returns, `close(results)`;
* `print`: `main` receives a line and prints it;
* `finish`: `main` finds `results` closed and empty. -/
inductive Action where
  | send (i : Nat)
  | closeTodo
  | work (i : Nat)
  | result (i : Nat)
  | exit (i : Nat)
  | closeResults
  | print
  | finish
  deriving DecidableEq, Repr

/-- The step `a` in state `s`, or `none` when the goroutine cannot take it there.
Nothing runs once `main` has returned or `log.Fatal` was called.  A send on `results`
waits for room in the buffer; a receive by `main` that finds a waiting sender is the
send followed by `print`.  No send is offered on the closed `results`: by then every
worker has returned (`PipeInv.res`). -/
def step {σ : Type} (op : σ → String → Except Stop (String × σ)) (s : Pipe σ) :
    Action → Option (Pipe σ) :=
  fun a =>
  if s.finished = true ∨ s.stopped ≠ none then none else
  match a with
  | .send i =>
    match s.feeder, s.workers[i]? with
    | f :: rest, some .idle =>
      some { s with feeder := rest, workers := s.workers.set i (.busy f) }
    | _, _ => none
  | .closeTodo =>
    if s.feeder = [] ∧ s.todoClosed = false then some { s with todoClosed := true } else none
  | .work i =>
    match s.workers[i]? with
    | some (.busy f) =>
      match op s.world f with
      | .ok (line, w) => some { s with world := w, workers := s.workers.set i (.sending line) }
      | .error e => some { s with stopped := some e }
    | _ => none
  | .result i =>
    match s.workers[i]? with
    | some (.sending line) =>
      if s.results.length < s.cap ∧ s.resultsClosed = false then
        some { s with results := s.results ++ [line], workers := s.workers.set i .idle }
      else none
    | _ => none
  | .exit i =>
    match s.workers[i]? with
    | some .idle =>
      if s.todoClosed = true then some { s with workers := s.workers.set i .done } else none
    | _ => none
  | .closeResults =>
    if (s.workers.all fun w => w == Worker.done) = true ∧ s.resultsClosed = false then
      some { s with resultsClosed := true }
    else none
  | .print =>
    match s.results with
    | line :: rest => some { s with results := rest, output := s.output ++ [line] }
    | [] => none
  | .finish =>
    if s.resultsClosed = true ∧ s.results = [] then some { s with finished := true } else none

/-- A schedule: the steps taken, in order. -/
def exec {σ : Type} (op : σ → String → Except Stop (String × σ)) :
    Pipe σ → List Action → Option (Pipe σ)
  | s, [] => some s
  | s, a :: rest =>
    match step op s a with
    | some s1 => exec op s1 rest
    | none => none

/-- The lines a worker still owes: the line of the file it holds, or the line it is
about to send. -/
def Worker.pending (line : String → String) : Worker → Multiset String
  | .busy f => {line f}
  | .sending l => {l}
  | _ => 0

/-- The lines owed by all workers. -/
def pendingAll (line : String → String) (ws : List Worker) : Multiset String :=
  (ws.map (Worker.pending line)).sum

/-- What holds in every state a run reaches from `Pipe.init w0 files ws cap`, when
`I` is kept by the operation and `line f` is the line it produces for `f` under `I`. -/
structure PipeInv {σ : Type} (I : σ → Prop) (line : String → String) (files : List String)
    (n : Nat) (s : Pipe σ) : Prop where
  world : I s.world
  len : s.workers.length = n
  feed : ∀ f ∈ s.feeder, f ∈ files
  busy : ∀ f, Worker.busy f ∈ s.workers → f ∈ files
  closed : s.todoClosed = true → s.feeder = []
  done : Worker.done ∈ s.workers → s.todoClosed = true
  res : s.resultsClosed = true → ∀ w ∈ s.workers, w = Worker.done
  fin : s.finished = true → s.resultsClosed = true ∧ s.results = [] ∧ s.stopped = none
  count : (s.output : Multiset String) + (s.results : Multiset String)
      + pendingAll line s.workers + ((s.feeder.map line : List String) : Multiset String)
    = ((files.map line : List String) : Multiset String)

/-- The string `fmt.Sprintf("%s/%s", dir, f)`. -/
def joinPath (dir f : String) : String := dir ++ "/" ++ f

/-- The paths the worker of pcopy.go hands to `copyAndSha1Sum` for the name `f`. -/
def pcopyPaths (srcDir destDir f : String) : List String :=
  [joinPath srcDir f, joinPath destDir f]

/-- The path the worker of psha1sum.go hands to `sha1Sum` for the name `f`. -/
def psha1sumPaths (dir f : String) : List String := [joinPath dir f]

/-- Body of the worker loop of psha1sum.go (lines 59-60), up to the send. -/
def psha1sumWorker (dir : String) (fs : FS) (f : String) : Except Stop (String × FS) :=
  let fpath := joinPath dir f
  match sha1Sum fs fpath with
  | .error e => .error e
  | .ok sum => .ok (f ++ ": " ++ sum, fs)

/-- Body of the worker loop of pcopy.go (lines 65-68), up to the send. -/
def pcopyWorker (srcDir destDir : String) (fs : FS) (f : String) : Except Stop (String × FS) :=
  let srcName := joinPath srcDir f
  let destName := joinPath destDir f
  match copyAndSha1Sum fs srcName destName with
  | .error e => .error e
  | .ok ((numBytes, chksum), fs1) => .ok (f ++ " " ++ toString numBytes ++ " " ++ chksum, fs1)

/-- The bytes of the file at `path` (none when there is nothing). -/
def dataAt (fs : FS) (path : String) : List Nat :=
  match fs.node path with
  | some nd => nd.data
  | none => []

/-- The bytes `sha1Sum` hashes at `path`: what the file delivers before its end or a
fault; nothing for a directory. -/
def hashedAt (fs : FS) (path : String) : List Nat :=
  match fs.node path with
  | some nd => if IsDir nd.mode = true then [] else avail nd
  | none => []

/-- The line of psha1sum.go for the name `f`, from the file system `fs` the run starts
in. -/
def psha1sumLine (fs : FS) (dir f : String) : String :=
  f ++ ": " ++ sha1Hex (hashedAt fs (joinPath dir f))

/-- The line of pcopy.go for the name `f`, from the file system `fs` the run starts in:
size and digest of the source, or 0 and the digest of the empty input when the
destination path leads to the source itself. -/
def pcopyLine (fs : FS) (srcDir destDir f : String) : String :=
  if fs.key (joinPath srcDir f) = fs.key (joinPath destDir f) then
    f ++ " " ++ Nat.repr 0 ++ " " ++ sha1Hex []
  else
    f ++ " " ++ Nat.repr (sizeAt fs (joinPath srcDir f)) ++ " "
      ++ sha1Hex (dataAt fs (joinPath srcDir f))

/-- What a run of pcopy.go keeps of the file system `fs` it starts in: where paths
lead, and the content of every source that is not its own destination. -/
def SourcesKept (fs : FS) (srcDir destDir : String) (files : List String) (w : FS) : Prop :=
  w.key = fs.key ∧
  ∀ g ∈ files, fs.key (joinPath srcDir g) ≠ fs.key (joinPath destDir g) →
    (w.files (fs.key (joinPath srcDir g))).map Node.content
      = (fs.files (fs.key (joinPath srcDir g))).map Node.content

/-- The function `isThere`: whether `os.Open(dir)` succeeds. -/
def isThere (fs : FS) (dir : String) : Bool :=
  match osOpen fs dir with
  | .error _ => false
  | .ok _ => true

/-- The function `main` of psha1sum.go from line 32 to the start of the last
goroutine: the state from which the goroutines run, or the early stop. -/
def psha1sumMain (fs : FS) (numWorkers : Int) (dir : String) : Except Stop (Pipe FS) :=
  let n := clampWorkers numWorkers
  match makeChan n with
  | .error e => .error e
  | .ok cap =>
    match filesIn fs dir with
    | .error e => .error e
    | .ok files => .ok (Pipe.init fs files (startWorkers n n.toNat 0 []) cap)

/-- The function `main` of pcopy.go from line 34 to the start of the last goroutine. -/
def pcopyMain (fs : FS) (numWorkers : Int) (srcDir destDir : String) :
    Except Stop (Pipe FS) :=
  let n := clampWorkers numWorkers
  match makeChan n with
  | .error e => .error e
  | .ok cap =>
    if !isThere fs destDir then .error (.fatal ("Can't find directory " ++ destDir))
    else
      match filesIn fs srcDir with
      | .error e => .error e
      | .ok files => .ok (Pipe.init fs files (startWorkers n n.toNat 0 []) cap)

/-- The state a whole run of psha1sum.go reaches under a schedule.  When `main` stops
before the goroutines exist, nothing is queued, no worker runs and the world is the
initial one; no step follows. -/
def psha1sumRun (fs : FS) (numWorkers : Int) (dir : String) (sched : List Action) :
    Option (Pipe FS) :=
  match psha1sumMain fs numWorkers dir with
  | .error e =>
    match sched with
    | [] => some ⟨fs, [], false, [], 0, [], false, [], false, some e⟩
    | _ :: _ => none
  | .ok p => exec (psha1sumWorker dir) p sched

/-- The state a whole run of pcopy.go reaches under a schedule (see `psha1sumRun`). -/
def pcopyRun (fs : FS) (numWorkers : Int) (srcDir destDir : String) (sched : List Action) :
    Option (Pipe FS) :=
  match pcopyMain fs numWorkers srcDir destDir with
  | .error e =>
    match sched with
    | [] => some ⟨fs, [], false, [], 0, [], false, [], false, some e⟩
    | _ :: _ => none
  | .ok p => exec (pcopyWorker srcDir destDir) p sched

/-! ## Example file systems -/

/-- A source directory `src` with the regular file `a.txt` ("abc"), the directory
`sub` and the symbolic link `link` to `a.txt`, and an empty directory `dst`. -/
def fsDemo : FS where
  key := fun p => if p = "src/link" then "src/a.txt" else p
  lkey := fun p => p
  files := fun k =>
    if k = "src" then some ⟨ModeDir ||| 0o755, [], ["a.txt", "sub", "link"], none⟩
    else if k = "src/a.txt" then some ⟨0o644, [97, 98, 99], [], none⟩
    else if k = "src/sub" then some ⟨ModeDir ||| 0o755, [], [], none⟩
    else if k = "src/link" then some ⟨ModeSymlink ||| 0o777, [], [], none⟩
    else if k = "dst" then some ⟨ModeDir ||| 0o755, [], [], none⟩
    else none

/-- As `fsDemo`, but the device fails after the first byte of `a.txt`. -/
def fsFault : FS where
  key := fsDemo.key
  lkey := fsDemo.lkey
  files := fun k =>
    if k = "src/a.txt" then some ⟨0o644, [97, 98, 99], [], some 1⟩ else fsDemo.files k

/-- As `fsDemo`, but `dst` is a regular file. -/
def fsDestFile : FS where
  key := fsDemo.key
  lkey := fsDemo.lkey
  files := fun k => if k = "dst" then some ⟨0o644, [120], [], none⟩ else fsDemo.files k

/-- As `fsDemo`, with the directory `src` also reached as `src/`, so that `src//a.txt`
is another spelling of `src/a.txt`, and with a character device at `dev/null`. -/
def fsAlias : FS where
  key := fun p =>
    if p = "src/" then "src" else if p = "src//a.txt" then "src/a.txt" else fsDemo.key p
  lkey := fun p =>
    if p = "src/" then "src" else if p = "src//a.txt" then "src/a.txt" else p
  files := fun k =>
    if k = "dev/null" then some ⟨ModeDevice ||| ModeCharDevice ||| 0o666, [], [], none⟩
    else fsDemo.files k

/-- A source directory `src` with the regular files `a.txt` ("abc") and `b.txt` ("a"),
and a directory `dst`. -/
def fsTwo : FS where
  key := fun p => p
  lkey := fun p => p
  files := fun k =>
    if k = "src" then some ⟨ModeDir ||| 0o755, [], ["a.txt", "b.txt"], none⟩
    else if k = "src/a.txt" then some ⟨0o644, [97, 98, 99], [], none⟩
    else if k = "src/b.txt" then some ⟨0o644, [97], [], none⟩
    else if k = "dst" then some ⟨ModeDir ||| 0o755, [], [], none⟩
    else none

/-- As `fsTwo`, but `dst` already holds `a.txt`, a hard link to `src/b.txt`. -/
def fsLinked : FS where
  key := fun p => if p = "dst/a.txt" then "src/b.txt" else p
  lkey := fun p => if p = "dst/a.txt" then "src/b.txt" else p
  files := fun k =>
    if k = "dst" then some ⟨ModeDir ||| 0o755, [], ["a.txt"], none⟩ else fsTwo.files k

/-- Two workers, two files: worker 1 finishes `b.txt` before worker 0 finishes
`a.txt`. -/
def schedBA : List Action :=
  [.send 0, .send 1, .work 1, .work 0, .result 1, .closeTodo, .print, .result 0, .exit 1,
   .print, .exit 0, .closeResults, .finish]

/-- Two workers, two files: worker 0 finishes `a.txt` before worker 1 finishes
`b.txt`. -/
def schedAB : List Action :=
  [.send 0, .send 1, .work 0, .work 1, .result 0, .closeTodo, .print, .result 1, .exit 1,
   .print, .exit 0, .closeResults, .finish]

/-- The schedule in which worker 0 takes every file in turn and `main` prints each
line at once; then `todo` is closed, the `n` workers return, `results` is closed and
`main` ends. -/
def seqSched (files : List String) (n : Nat) : List Action :=
  files.flatMap (fun _ => [Action.send 0, Action.work 0, Action.result 0, Action.print])
    ++ [Action.closeTodo] ++ (List.range' 0 n).map Action.exit
    ++ [Action.closeResults, Action.finish]

/-- One schedule for one file and one worker. -/
def demoSched : List Action :=
  [.send 0, .work 0, .result 0, .print, .closeTodo, .exit 0, .closeResults, .finish]

/-- The line psha1sum.go prints for `a.txt` of `fsDemo`. -/
def demoLine (f : String) : String := f ++ ": a9993e364706816aba3e25717850c26c9cd0d89d"

/-! ## Worker count -/

theorem clampWorkers_eq_min (n : Int) : clampWorkers n = min n 30 := by
  unfold clampWorkers maxWorkers
  split <;> omega

theorem startWorkers_eq (n : Int) :
    ∀ (fuel : Nat) (i : Int) (ws : List Worker), (n - i).toNat ≤ fuel →
      startWorkers n fuel i ws = ws ++ List.replicate (n - i).toNat Worker.idle := by
  intro fuel
  induction fuel with
  | zero =>
    intro i ws h
    have h0 : (n - i).toNat = 0 := by omega
    simp [startWorkers, h0]
  | succ fuel ih =>
    intro i ws h
    unfold startWorkers
    split
    · next hlt =>
      rw [ih (i + 1) _ (by omega)]
      have e : (n - i).toNat = (n - (i + 1)).toNat + 1 := by omega
      rw [e, List.replicate_succ]
      simp
    · next hge =>
      have h0 : (n - i).toNat = 0 := by omega
      simp [h0]

theorem startWorkers_main (n : Int) :
    startWorkers n n.toNat 0 [] = List.replicate n.toNat Worker.idle := by
  rw [startWorkers_eq n n.toNat 0 [] (by simp)]
  simp

theorem makeChan_clamp (n : Int) (hn : 0 ≤ n) :
    makeChan (clampWorkers n) = .ok (min n 30).toNat := by
  rw [clampWorkers_eq_min]
  unfold makeChan
  rw [if_neg (by omega)]

theorem psha1sumMain_ok (fs : FS) (n : Int) (dir : String) (p : Pipe FS)
    (h : psha1sumMain fs n dir = .ok p) :
    ∃ files, filesIn fs dir = .ok files ∧ 0 ≤ clampWorkers n ∧
      p = Pipe.init fs files (List.replicate (clampWorkers n).toNat Worker.idle)
        (clampWorkers n).toNat := by
  unfold psha1sumMain at h
  simp only at h
  unfold makeChan at h
  split at h
  · cases h
  · next cap hc =>
    split at hc
    · simp at hc
    · next hneg =>
      simp only [Except.ok.injEq] at hc
      split at h
      · simp at h
      · next files hf =>
        simp only [Except.ok.injEq] at h
        refine ⟨files, hf, by omega, ?_⟩
        rw [← h, startWorkers_main, hc]

theorem pcopyMain_ok (fs : FS) (n : Int) (srcDir destDir : String) (p : Pipe FS)
    (h : pcopyMain fs n srcDir destDir = .ok p) :
    ∃ files, filesIn fs srcDir = .ok files ∧ 0 ≤ clampWorkers n ∧ isThere fs destDir = true ∧
      p = Pipe.init fs files (List.replicate (clampWorkers n).toNat Worker.idle)
        (clampWorkers n).toNat := by
  unfold pcopyMain at h
  simp only at h
  unfold makeChan at h
  split at h
  · cases h
  · next cap hc =>
    split at hc
    · simp at hc
    · next hneg =>
      simp only [Except.ok.injEq] at hc
      split at h
      · simp at h
      · next hthere =>
        split at h
        · simp at h
        · next files hf =>
          simp only [Except.ok.injEq] at h
          refine ⟨files, hf, by omega, by simpa using hthere, ?_⟩
          rw [← h, startWorkers_main, hc]

/-- C1 (as amended): for every requested worker count `n ≥ 0`, both programs start
`min n 30` worker goroutines and give `results` the capacity `min n 30`; a request
above 30 is configured exactly as a request of 30. -/
theorem C1_pool_size (n : Int) (hn : 0 ≤ n) (fs : FS) (srcDir destDir : String) :
    clampWorkers n = min n 30 ∧
    makeChan (clampWorkers n) = .ok (min n 30).toNat ∧
    startWorkers (clampWorkers n) (clampWorkers n).toNat 0 []
      = List.replicate (min n 30).toNat Worker.idle ∧
    (∀ p, psha1sumMain fs n srcDir = .ok p →
      (p.workers.length : Int) = min n 30 ∧ (p.cap : Int) = min n 30) ∧
    (∀ p, pcopyMain fs n srcDir destDir = .ok p →
      (p.workers.length : Int) = min n 30 ∧ (p.cap : Int) = min n 30) ∧
    (30 < n → psha1sumMain fs n srcDir = psha1sumMain fs 30 srcDir ∧
      pcopyMain fs n srcDir destDir = pcopyMain fs 30 srcDir destDir) := by
  have hc := clampWorkers_eq_min n
  refine ⟨hc, makeChan_clamp n hn, ?_, ?_, ?_, ?_⟩
  · rw [startWorkers_main, hc]
  · intro p hp
    obtain ⟨files, -, h0, rfl⟩ := psha1sumMain_ok fs n srcDir p hp
    simp only [Pipe.init, List.length_replicate]
    rw [hc] at h0 ⊢
    omega
  · intro p hp
    obtain ⟨files, -, h0, -, rfl⟩ := pcopyMain_ok fs n srcDir destDir p hp
    simp only [Pipe.init, List.length_replicate]
    rw [hc] at h0 ⊢
    omega
  · intro h30
    have e : clampWorkers n = clampWorkers 30 := by
      rw [clampWorkers_eq_min, clampWorkers_eq_min]; omega
    unfold psha1sumMain pcopyMain
    simp only [e]
    exact ⟨trivial, trivial⟩

/-! ## Paths and filesIn -/

theorem takeWhile_no_slash (rest tail : List Char) (h : '/' ∉ rest) :
    (rest ++ '/' :: tail).takeWhile (fun x => x != '/') = rest := by
  induction rest with
  | nil => simp [List.takeWhile]
  | cons c rest ih =>
    have hc : c ≠ '/' := fun e => h (by simp [e])
    have hr : '/' ∉ rest := fun e => h (by simp [e])
    have hb : (c != '/') = true := by simpa using hc
    rw [List.cons_append, List.takeWhile_cons, hb]
    simp [ih hr]

theorem dropSlashes_head (c : Char) (rest : List Char) (hc : c ≠ '/') :
    dropSlashes (c :: rest) = c :: rest := by
  cases rest with
  | nil => simp [dropSlashes]
  | cons d rest => simp [dropSlashes, hc]

theorem basename_join (dir name : String) (h : validName name) :
    basename (dir ++ "/" ++ name) = name := by
  obtain ⟨hne, hns⟩ := h
  have hdata : (dir ++ "/" ++ name).data.reverse
      = name.data.reverse ++ '/' :: dir.data.reverse := by
    simp [String.data_append]
  unfold basename
  rw [hdata]
  cases hrev : name.data.reverse with
  | nil => exact absurd (List.reverse_eq_nil_iff.mp hrev) hne
  | cons c rest =>
    have hmem : ∀ x, x ∈ c :: rest → x ∈ name.data := by
      intro x hx
      rw [← hrev] at hx
      exact List.mem_reverse.mp hx
    have hc : c ≠ '/' := fun e => hns (e ▸ hmem c (by simp))
    have hr : '/' ∉ rest := fun e => hns (hmem _ (by simp [e]))
    rw [List.cons_append, dropSlashes_head c _ hc]
    simp only
    rw [takeWhile_no_slash rest _ hr]
    have e2 : rest.reverse ++ [c] = name.data := by
      have := congrArg List.reverse hrev
      simpa using this.symm
    rw [e2]

theorem filesInLoop_eq (fs : FS) (dir : String) :
    ∀ (names acc : List String),
      (∀ n ∈ names, validName n ∧ (fs.lnode (dir ++ "/" ++ n)).isSome = true) →
      filesInLoop fs dir names acc = .ok (acc ++ names.filter (lstatRegular fs dir)) := by
  intro names
  induction names with
  | nil => intro acc _; simp [filesInLoop]
  | cons name rest ih =>
    intro acc h
    obtain ⟨hv, hs⟩ := h name (by simp)
    have hrest : ∀ n ∈ rest, validName n ∧ (fs.lnode (dir ++ "/" ++ n)).isSome = true :=
      fun n hn => h n (by simp [hn])
    obtain ⟨nd, hnd⟩ := Option.isSome_iff_exists.mp hs
    unfold filesInLoop
    simp only [osLstat, hnd, basename_join dir name hv]
    by_cases hreg : IsRegular nd.mode = true
    · rw [if_pos hreg, ih _ hrest]
      have : lstatRegular fs dir name = true := by simp [lstatRegular, hnd, hreg]
      simp [List.filter_cons, this]
    · rw [if_neg hreg, ih _ hrest]
      have : lstatRegular fs dir name = false := by simp [lstatRegular, hnd, hreg]
      simp [List.filter_cons, this]

/-- C2: in a directory whose entries have distinct, well-formed names (not empty, no
slash) and all exist, `filesIn` returns exactly the names of the entries whose `Lstat`
mode is regular: it is the listing filtered by `IsRegular`, without duplicates, every
regular entry once and no other entry. -/
theorem C2_filesIn_regular (fs : FS) (dir : String) (d : Node)
    (hd : fs.node dir = some d) (hdir : IsDir d.mode = true) (hnodup : d.names.Nodup)
    (hvalid : ∀ n ∈ d.names, validName n)
    (hex : ∀ n ∈ d.names, (fs.lnode (dir ++ "/" ++ n)).isSome = true) :
    ∃ r, filesIn fs dir = .ok r ∧
      r = d.names.filter (lstatRegular fs dir) ∧
      r.Nodup ∧
      (∀ n, n ∈ r ↔ n ∈ d.names ∧ lstatRegular fs dir n = true) ∧
      (∀ n ∈ d.names, lstatRegular fs dir n = true → r.count n = 1) ∧
      (∀ n, lstatRegular fs dir n = false → r.count n = 0) := by
  refine ⟨d.names.filter (lstatRegular fs dir), ?_, rfl, hnodup.filter _, ?_, ?_, ?_⟩
  · unfold filesIn readdirnames osOpen
    simp only [hd, hdir, if_true]
    rw [filesInLoop_eq fs dir d.names [] (fun n hn => ⟨hvalid n hn, hex n hn⟩)]
    simp
  · intro n
    simp [List.mem_filter]
  · intro n hn hreg
    rw [List.count_filter hreg]
    exact List.count_eq_one_of_mem hnodup hn
  · intro n hreg
    rw [List.count_eq_zero]
    intro hmem
    have := (List.mem_filter.mp hmem).2
    rw [hreg] at this
    cases this

theorem append_slash_inj (a b x y : List Char) (ha : '/' ∉ a) (hb : '/' ∉ b)
    (h : a ++ '/' :: x = b ++ '/' :: y) : a = b := by
  induction a generalizing b with
  | nil =>
    cases b with
    | nil => rfl
    | cons c b =>
      simp only [List.nil_append, List.cons_append, List.cons.injEq] at h
      exact absurd (show '/' ∈ c :: b from h.1 ▸ List.mem_cons_self _ _) hb
  | cons c a ih =>
    cases b with
    | nil =>
      simp only [List.nil_append, List.cons_append, List.cons.injEq] at h
      exact absurd (show '/' ∈ c :: a from h.1 ▸ List.mem_cons_self _ _) ha
    | cons e b =>
      simp only [List.cons_append, List.cons.injEq] at h
      have ha2 : '/' ∉ a := fun m => ha (by simp [m])
      have hb2 : '/' ∉ b := fun m => hb (by simp [m])
      rw [h.1, ih b ha2 hb2 h.2]

theorem joinPath_inj (s d f g : String) (hf : '/' ∉ f.data) (hg : '/' ∉ g.data)
    (h : joinPath s f = joinPath d g) : f = g := by
  have h1 := congrArg (fun t : String => t.data.reverse) h
  simp only [joinPath, String.data_append, List.reverse_append] at h1
  have h2 : f.data.reverse ++ '/' :: s.data.reverse = g.data.reverse ++ '/' :: d.data.reverse := by
    simpa using h1
  have h3 := append_slash_inj _ _ _ _ (by simpa using hf) (by simpa using hg) h2
  have h4 : f.data = g.data := by simpa using congrArg List.reverse h3
  exact String.ext h4

/-- C9: for names `f ≠ g` without a slash, the paths built from them are distinct for
every source and destination directory: `s/f ≠ s/g`, `d/f ≠ d/g`, `s/f ≠ d/g`, and the
paths handed to the per-file operation for `f` are disjoint from those for `g`, in
both programs. -/
theorem C9_paths_distinct (s d f g : String) (hf : '/' ∉ f.data) (hg : '/' ∉ g.data)
    (hne : f ≠ g) :
    joinPath s f ≠ joinPath s g ∧ joinPath d f ≠ joinPath d g ∧
    joinPath s f ≠ joinPath d g ∧
    (∀ p, p ∈ pcopyPaths s d f → p ∉ pcopyPaths s d g) ∧
    (∀ p, p ∈ psha1sumPaths s f → p ∉ psha1sumPaths s g) := by
  have key : ∀ a b : String, joinPath a f ≠ joinPath b g :=
    fun a b h => hne (joinPath_inj a b f g hf hg h)
  refine ⟨key s s, key d d, key s d, ?_, ?_⟩
  · intro p hp hq
    simp only [pcopyPaths, List.mem_cons, List.mem_singleton, List.not_mem_nil, or_false] at hp hq
    rcases hp with rfl | rfl <;> rcases hq with h | h
    · exact key _ _ h
    · exact key _ _ h
    · exact key _ _ h
    · exact key _ _ h
  · intro p hp hq
    simp only [psha1sumPaths, List.mem_singleton] at hp hq
    exact key _ _ (hp ▸ hq)

/-! ## The digest string and the result line -/

theorem sha1_length (data : List Nat) : (sha1 data).length = 20 := by
  simp [sha1, be32]

theorem hexDigit_lower (d : Nat) : isLowerHex (hexDigit d) = true := by
  unfold hexDigit
  have h : d % 16 < 16 := Nat.mod_lt _ (by decide)
  generalize d % 16 = k at h
  interval_cases k <;> decide

theorem hexEncode_length (bs : List Nat) : (hexEncode bs).length = 2 * bs.length := by
  unfold hexEncode
  rw [String.length]
  induction bs with
  | nil => rfl
  | cons b bs ih =>
    simp only [List.flatMap_cons, List.length_append, List.length_cons, List.length_nil, ih]
    omega

theorem hexEncode_lower (bs : List Nat) : ∀ c ∈ (hexEncode bs).data, isLowerHex c = true := by
  intro c hc
  simp only [hexEncode, List.mem_flatMap, List.mem_cons, List.mem_singleton,
    List.not_mem_nil, or_false] at hc
  obtain ⟨b, -, h | h⟩ := hc <;> rw [h] <;> exact hexDigit_lower _

theorem sha1Hex_shape (data : List Nat) :
    (sha1Hex data).length = 40 ∧ ∀ c ∈ (sha1Hex data).data, isLowerHex c = true := by
  refine ⟨?_, hexEncode_lower _⟩
  rw [sha1Hex, hexEncode_length, sha1_length]

theorem sha1Sum_digest (fs : FS) (filename chk : String) (h : sha1Sum fs filename = .ok chk) :
    ∃ data, chk = sha1Hex data := by
  unfold sha1Sum at h
  split at h
  · cases h
  · split at h
    · cases h
    · next hh _ _ _ =>
      simp only [Except.ok.injEq] at h
      exact ⟨hh, h.symm⟩

theorem copyAndSha1Sum_digest (fs fs1 : FS) (srcName destName chk : String) (n : Nat)
    (h : copyAndSha1Sum fs srcName destName = .ok ((n, chk), fs1)) :
    ∃ data, chk = sha1Hex data := by
  unfold copyAndSha1Sum at h
  split at h
  · cases h
  · split at h
    · cases h
    · split at h
      · cases h
      · cases h
      · next fs2 hh _ _ =>
        simp only [Except.ok.injEq, Prod.mk.injEq] at h
        exact ⟨hh, h.1.2.symm⟩

/-- C8: the line a worker of pcopy.go produces for `f` is `f`, a space, the decimal
byte count, a space and the digest; the line a worker of psha1sum.go produces is `f`,
a colon, a space and the digest; the digest is the lower-case hexadecimal encoding of a
20-byte SHA-1 digest: 40 characters, each in `0-9a-f`. -/
theorem C8_result_line (fs fs1 gs gs1 : FS) (srcDir destDir dir f g line1 line2 : String)
    (hc : pcopyWorker srcDir destDir fs f = .ok (line1, fs1))
    (hs : psha1sumWorker dir gs g = .ok (line2, gs1)) :
    (∃ n chk data, copyAndSha1Sum fs (joinPath srcDir f) (joinPath destDir f) = .ok ((n, chk), fs1) ∧
      line1 = f ++ " " ++ Nat.repr n ++ " " ++ chk ∧
      chk = hexEncode (sha1 data) ∧ (sha1 data).length = 20 ∧
      chk.length = 40 ∧ ∀ c ∈ chk.data, isLowerHex c = true) ∧
    (∃ chk data, sha1Sum gs (joinPath dir g) = .ok chk ∧
      line2 = g ++ ": " ++ chk ∧
      chk = hexEncode (sha1 data) ∧ (sha1 data).length = 20 ∧
      chk.length = 40 ∧ ∀ c ∈ chk.data, isLowerHex c = true) := by
  constructor
  · unfold pcopyWorker at hc
    simp only at hc
    split at hc
    · cases hc
    · next n chk fs2 hcopy =>
      simp only [Except.ok.injEq, Prod.mk.injEq] at hc
      obtain ⟨data, hdata⟩ := copyAndSha1Sum_digest _ _ _ _ _ _ hcopy
      refine ⟨n, chk, data, ?_, hc.1.symm, hdata, sha1_length _, ?_, ?_⟩
      · rw [hcopy, hc.2]
      · rw [hdata]; exact (sha1Hex_shape data).1
      · rw [hdata]; exact (sha1Hex_shape data).2
  · unfold psha1sumWorker at hs
    simp only at hs
    split at hs
    · cases hs
    · next chk hsum =>
      simp only [Except.ok.injEq, Prod.mk.injEq] at hs
      obtain ⟨data, hdata⟩ := sha1Sum_digest _ _ _ hsum
      refine ⟨chk, data, hsum, hs.1.symm, hdata, sha1_length _, ?_, ?_⟩
      · rw [hdata]; exact (sha1Hex_shape data).1
      · rw [hdata]; exact (sha1Hex_shape data).2

/-! ## The copy loop -/

theorem take_append_drop_length (X : List Nat) (B : Nat) :
    X.take B ++ X.drop (X.take B).length = X := by
  rw [List.length_take]
  by_cases h : B ≤ X.length
  · rw [Nat.min_eq_left h, List.take_append_drop]
  · have h2 : X.length ≤ B := by omega
    rw [Nat.min_eq_right h2, List.take_of_length_le h2, List.drop_length, List.append_nil]

/-- When every state reached satisfies `P`, reads deliver the next chunk of `src` and
the read at its end gives `last`, then the loop writes all of `src` from `off` on and
returns its length, within `src.length - off + 1` iterations. -/
theorem ioCopy_spec {σ : Type} (read : σ → Nat → ReadResult) (write : σ → List Nat → σ)
    (P : σ → Prop) (src : List Nat) (B : Nat) (last : Option String) (hB : 0 < B)
    (hP : ∀ s bs, P s → P (write s bs))
    (hread : ∀ s off, P s → off < src.length → read s off = .bytes ((src.drop off).take B))
    (hend : ∀ s, P s → read s src.length = (match last with | none => .eof | some e => .err e))
    (hw : ∀ s a b, write (write s a) b = write s (a ++ b))
    (hw0 : ∀ s, P s → write s [] = s) :
    ∀ (fuel off : Nat) (s : σ), P s → off ≤ src.length → src.length - off < fuel →
      ioCopy read write fuel s off = some (write s (src.drop off), src.length, last) := by
  intro fuel
  induction fuel with
  | zero => intro off s _ _ h; omega
  | succ fuel ih =>
    intro off s hs hle hfuel
    unfold ioCopy
    by_cases hlt : off < src.length
    · rw [hread s off hs hlt]
      simp only
      have hlen : ((src.drop off).take B).length = min B (src.length - off) := by
        rw [List.length_take, List.length_drop]
      have hpos : 0 < ((src.drop off).take B).length := by rw [hlen]; omega
      have hle2 : off + ((src.drop off).take B).length ≤ src.length := by rw [hlen]; omega
      rw [ih _ _ (hP s _ hs) hle2 (by omega), hw]
      have e : (src.drop off).take B ++ src.drop (off + ((src.drop off).take B).length)
          = src.drop off := by
        rw [← List.drop_drop]
        exact take_append_drop_length (src.drop off) B
      rw [e]
    · have e : off = src.length := by omega
      subst e
      rw [hend s hs, List.drop_length, hw0 s hs]
      cases last <;> rfl

theorem avail_length_le (nd : Node) : (avail nd).length ≤ nd.data.length := by
  unfold avail
  split
  · exact le_refl _
  · rw [List.length_take]; exact Nat.min_le_right _ _

theorem avail_eq_data (nd : Node) (h : (avail nd).length = nd.data.length) :
    avail nd = nd.data := by
  unfold avail at h ⊢
  split
  · rfl
  · next k hk =>
    rw [hk] at h
    simp only [List.length_take] at h
    exact List.take_of_length_le (by omega)

theorem fileRead_chunk (fs : FS) (path : String) (nd : Node) (len off : Nat)
    (h : fs.node path = some nd) (hnd : IsDir nd.mode = false) (hoff : off < (avail nd).length) :
    fileRead fs path off len = .bytes (((avail nd).drop off).take len) := by
  have hle := avail_length_le nd
  unfold fileRead
  simp only [h, hnd, Bool.false_eq_true, if_false]
  rw [if_neg (by omega)]
  unfold avail at hoff ⊢
  cases hf : nd.fault with
  | none => rfl
  | some k =>
    rw [hf] at hoff
    simp only [List.length_take] at hoff
    simp only
    rw [if_neg (by omega)]

theorem fileRead_end (fs : FS) (path : String) (nd : Node) (len : Nat)
    (h : fs.node path = some nd) (hnd : IsDir nd.mode = false) :
    fileRead fs path (avail nd).length len
      = (match lastRead path nd with | none => .eof | some e => .err e) := by
  have hle := avail_length_le nd
  unfold fileRead lastRead
  simp only [h, hnd, Bool.false_eq_true, if_false]
  by_cases he : (avail nd).length = nd.data.length
  · rw [if_pos he, if_pos (by omega)]
  · rw [if_neg he, if_neg (by omega)]
    unfold avail at he hle ⊢
    cases hf : nd.fault with
    | none => rw [hf] at he; exact absurd rfl he
    | some k =>
      rw [hf] at he hle
      simp only [List.length_take] at he hle ⊢
      rw [if_pos (by omega)]

theorem fileRead_dir (fs : FS) (path : String) (nd : Node) (len off : Nat)
    (h : fs.node path = some nd) (hnd : IsDir nd.mode = true) :
    fileRead fs path off len = .err ("read " ++ path ++ ": is a directory") := by
  unfold fileRead
  simp only [h, hnd, if_true]

/-! ## sha1Sum and copyAndSha1Sum -/

theorem sha1Sum_spec (fs : FS) (path : String) (nd : Node) (h : fs.node path = some nd) :
    sha1Sum fs path = .ok (sha1Hex (if IsDir nd.mode = true then [] else avail nd)) := by
  unfold sha1Sum osOpen
  simp only [h]
  by_cases hd : IsDir nd.mode = true
  · rw [if_pos hd]
    unfold ioCopy
    rw [fileRead_dir fs path nd _ _ h hd]
  · rw [if_neg hd]
    have hd2 : IsDir nd.mode = false := by simpa using hd
    have hsize : sizeAt fs path = nd.data.length := by simp [sizeAt, h]
    have hle := avail_length_le nd
    rw [ioCopy_spec (fun (_ : List Nat) off => fileRead fs path off copyBufSize)
      (fun h bs => h ++ bs) (fun _ => True) (avail nd) copyBufSize (lastRead path nd)
      (by decide) (fun _ _ _ => trivial)
      (fun _ off _ hoff => fileRead_chunk fs path nd _ off h hd2 hoff)
      (fun _ _ => fileRead_end fs path nd _ h hd2)
      (fun s a b => List.append_assoc s a b) (fun s _ => List.append_nil s)
      (sizeAt fs path + 1) 0 [] trivial (Nat.zero_le _) (by omega)]
    simp

theorem FS.set_same (fs : FS) (k : String) (nd : Node) : (fs.set k nd).files k = some nd := by
  simp [FS.set]

theorem FS.set_other (fs : FS) (k q : String) (nd : Node) (h : q ≠ k) :
    (fs.set k nd).files q = fs.files q := by
  simp [FS.set, h]

theorem FS.set_set (fs : FS) (k : String) (x y : Node) : (fs.set k x).set k y = fs.set k y := by
  simp only [FS.set, FS.mk.injEq, true_and]
  funext q
  by_cases hq : q = k <;> simp [hq]

theorem FS.set_self (fs : FS) (k : String) (nd : Node) (h : fs.files k = some nd) :
    fs.set k nd = fs := by
  cases fs with
  | mk key lkey files =>
    simp only [FS.set, FS.mk.injEq, true_and]
    funext q
    by_cases hq : q = k
    · rw [if_pos hq, hq]; exact h.symm
    · rw [if_neg hq]

theorem IsDir_new : IsDir 0o666 = false := by decide

theorem IsRegular_new : IsRegular 0o666 = true := by decide

theorem FS.link_key (fs : FS) (path : String) : (fs.link path).key = fs.key := by
  unfold FS.link
  cases parentOf path with
  | none => rfl
  | some d =>
    simp only
    cases fs.node d with
    | none => rfl
    | some dn => rfl

theorem FS.link_content (fs : FS) (path q : String) :
    ((fs.link path).files q).map Node.content = (fs.files q).map Node.content := by
  unfold FS.link
  cases parentOf path with
  | none => rfl
  | some d =>
    simp only
    cases hdn : fs.node d with
    | none => rfl
    | some dn =>
      simp only
      by_cases hq : q = fs.key d
      · subst hq
        rw [FS.set_same]
        unfold FS.node at hdn
        rw [hdn]
        rfl
      · rw [FS.set_other _ _ _ _ hq]

theorem osCreate_spec (fs fs1 : FS) (dest : String) (h : osCreate fs dest = .ok fs1) :
    fs1.key = fs.key ∧
    (∃ dn1, fs1.files (fs.key dest) = some dn1 ∧ dn1.data = [] ∧ IsDir dn1.mode = false ∧
      (∀ nd, fs.node dest = some nd → dn1.mode = nd.mode ∧ dn1.fault = nd.fault) ∧
      (fs.node dest = none → dn1.mode = 0o666 ∧ dn1.fault = none)) ∧
    (∀ q, q ≠ fs.key dest →
      (fs1.files q).map Node.content = (fs.files q).map Node.content) := by
  unfold osCreate at h
  cases hnd : fs.node dest with
  | some nd =>
    rw [hnd] at h
    simp only at h
    by_cases hdir : IsDir nd.mode = true
    · rw [if_pos hdir] at h; cases h
    · rw [if_neg hdir] at h
      simp only [Except.ok.injEq] at h
      subst h
      refine ⟨rfl, ⟨⟨nd.mode, [], nd.names, nd.fault⟩, FS.set_same _ _ _, rfl,
        by simpa using hdir, ?_, ?_⟩, ?_⟩
      · intro nd2 h2
        cases h2
        exact ⟨rfl, rfl⟩
      · intro h2; cases h2
      · intro q hq
        rw [FS.set_other _ _ _ _ hq]
  | none =>
    rw [hnd] at h
    simp only at h
    cases hpar : parentOf dest with
    | none =>
      rw [hpar] at h
      simp only [Except.ok.injEq] at h
      subst h
      refine ⟨rfl, ⟨⟨0o666, [], [], none⟩, FS.set_same _ _ _, rfl, IsDir_new, ?_,
        fun _ => ⟨rfl, rfl⟩⟩, ?_⟩
      · intro nd2 h2; cases h2
      · intro q hq
        rw [FS.set_other _ _ _ _ hq]
    | some d =>
      rw [hpar] at h
      simp only at h
      cases hdn : fs.node d with
      | none => rw [hdn] at h; cases h
      | some dn =>
        rw [hdn] at h
        simp only at h
        by_cases hdir : IsDir dn.mode = true
        · rw [if_pos hdir] at h
          simp only [Except.ok.injEq] at h
          subst h
          refine ⟨FS.link_key fs dest, ⟨⟨0o666, [], [], none⟩, ?_, rfl, IsDir_new, ?_,
            fun _ => ⟨rfl, rfl⟩⟩, ?_⟩
          · have := FS.set_same (fs.link dest) (fs.key dest) ⟨0o666, [], [], none⟩
            exact this
          · intro nd2 h2; cases h2
          · intro q hq
            have e : ((fs.link dest).set (fs.key dest) ⟨0o666, [], [], none⟩).files q
                = (fs.link dest).files q := FS.set_other _ _ _ _ hq
            rw [e]
            exact FS.link_content fs dest q
        · rw [if_neg hdir] at h; cases h

theorem fileWrite_key (fs : FS) (dest : String) (bs : List Nat) :
    (fileWrite fs dest bs).key = fs.key := by
  unfold fileWrite
  cases fs.node dest with
  | none => rfl
  | some nd =>
    simp only
    by_cases hr : IsRegular nd.mode = true
    · rw [if_pos hr]; rfl
    · rw [if_neg hr]

theorem fileWrite_nil (fs : FS) (dest : String) : fileWrite fs dest [] = fs := by
  unfold fileWrite
  cases hnd : fs.node dest with
  | none => rfl
  | some nd =>
    simp only
    by_cases hr : IsRegular nd.mode = true
    · rw [if_pos hr, List.append_nil]
      exact FS.set_self fs _ _ hnd
    · rw [if_neg hr]

theorem fileWrite_same (fs : FS) (dest : String) (bs : List Nat) (nd : Node)
    (h : fs.node dest = some nd) (hr : IsRegular nd.mode = true) :
    fileWrite fs dest bs = fs.set (fs.key dest) ⟨nd.mode, nd.data ++ bs, nd.names, nd.fault⟩ := by
  unfold fileWrite
  rw [h]
  simp only [hr, if_true]

theorem fileWrite_device (fs : FS) (dest : String) (bs : List Nat) (nd : Node)
    (h : fs.node dest = some nd) (hr : IsRegular nd.mode = false) :
    fileWrite fs dest bs = fs := by
  unfold fileWrite
  rw [h]
  simp only [hr, Bool.false_eq_true, if_false]

theorem fileWrite_fileWrite (fs : FS) (dest : String) (a b : List Nat) :
    fileWrite (fileWrite fs dest a) dest b = fileWrite fs dest (a ++ b) := by
  cases hnd : fs.node dest with
  | none =>
    have e : ∀ bs, fileWrite fs dest bs = fs := fun bs => by simp [fileWrite, hnd]
    rw [e a, e b, e (a ++ b)]
  | some nd =>
    cases hr : IsRegular nd.mode with
    | false =>
      rw [fileWrite_device fs dest a nd hnd hr, fileWrite_device fs dest b nd hnd hr,
        fileWrite_device fs dest (a ++ b) nd hnd hr]
    | true =>
      rw [fileWrite_same fs dest a nd hnd hr, fileWrite_same fs dest (a ++ b) nd hnd hr]
      have h2 : (fs.set (fs.key dest) ⟨nd.mode, nd.data ++ a, nd.names, nd.fault⟩).node dest
          = some ⟨nd.mode, nd.data ++ a, nd.names, nd.fault⟩ := FS.set_same _ _ _
      rw [fileWrite_same _ dest b _ h2 hr]
      simp only [List.append_assoc]
      exact FS.set_set _ _ _ _

theorem fileWrite_other (fs : FS) (dest q : String) (bs : List Nat) (h : q ≠ fs.key dest) :
    (fileWrite fs dest bs).files q = fs.files q := by
  unfold fileWrite
  cases hnd : fs.node dest with
  | none => rfl
  | some nd =>
    simp only
    by_cases hr : IsRegular nd.mode = true
    · rw [if_pos hr]
      exact FS.set_other _ _ _ _ h
    · rw [if_neg hr]

/-- The copy loop of `copyAndSha1Sum` when source and destination are different files:
once the source is open and the destination created, it stops with `lastRead` after
writing `avail` to both the destination and the hash. -/
theorem tee_loop (fs1 : FS) (srcName destName : String) (snd : Node)
    (hne : fs1.key srcName ≠ fs1.key destName)
    (hs : fs1.node srcName = some snd) (hdir : IsDir snd.mode = false) :
    ioCopy (fun (s : FS × List Nat) off => fileRead s.1 srcName off copyBufSize)
        (fun s bs => (fileWrite s.1 destName bs, s.2 ++ bs))
        (sizeAt fs1 srcName + 1) (fs1, []) 0
      = some ((fileWrite fs1 destName (avail snd), avail snd), (avail snd).length,
          lastRead srcName snd) := by
  have hsize : sizeAt fs1 srcName = snd.data.length := by simp [sizeAt, hs]
  have hle := avail_length_le snd
  have hnode : ∀ s : FS × List Nat,
      (s.1.key = fs1.key ∧ s.1.files (fs1.key srcName) = some snd) →
      s.1.node srcName = some snd := by
    intro s hP
    unfold FS.node
    rw [hP.1]
    exact hP.2
  rw [ioCopy_spec (fun (s : FS × List Nat) off => fileRead s.1 srcName off copyBufSize)
    (fun s bs => (fileWrite s.1 destName bs, s.2 ++ bs))
    (fun s => s.1.key = fs1.key ∧ s.1.files (fs1.key srcName) = some snd)
    (avail snd) copyBufSize (lastRead srcName snd)
    (by decide)
    (fun s bs hP => by
      refine ⟨by simp only [fileWrite_key]; exact hP.1, ?_⟩
      simp only
      rw [fileWrite_other _ _ _ _ (by rw [hP.1]; exact hne)]
      exact hP.2)
    (fun s off hP hoff => fileRead_chunk s.1 srcName snd _ off (hnode s hP) hdir hoff)
    (fun s hP => fileRead_end s.1 srcName snd _ (hnode s hP) hdir)
    (fun s a b => by simp [fileWrite_fileWrite])
    (fun s _ => by simp [fileWrite_nil])
    (sizeAt fs1 srcName + 1) 0 (fs1, []) ⟨rfl, hs⟩ (Nat.zero_le _) (by omega)]
  simp

theorem avail_congr (a b : Node) (h : a.content = b.content) :
    avail a = avail b ∧ a.data = b.data ∧ a.mode = b.mode := by
  simp only [Node.content, Prod.mk.injEq] at h
  obtain ⟨hm, hd, hf⟩ := h
  exact ⟨by simp [avail, hd, hf], hd, hm⟩

/-- A successful `copyAndSha1Sum` between different files: the source was read to its
end, the result is its size and digest, and the file system left is the one after
`os.Create` with the source's bytes written to the destination. -/
theorem copy_ne_spec (fs fs2 : FS) (srcName destName chk : String) (n : Nat)
    (hne : fs.key srcName ≠ fs.key destName)
    (h : copyAndSha1Sum fs srcName destName = .ok ((n, chk), fs2)) :
    ∃ snd fs1, fs.node srcName = some snd ∧ osCreate fs destName = .ok fs1 ∧
      fs2 = fileWrite fs1 destName snd.data ∧ n = snd.data.length ∧
      chk = sha1Hex snd.data := by
  unfold copyAndSha1Sum at h
  unfold osOpen at h
  cases hs : fs.node srcName with
  | none => rw [hs] at h; cases h
  | some snd =>
    rw [hs] at h
    simp only at h
    cases hc : osCreate fs destName with
    | error e => rw [hc] at h; cases h
    | ok fs1 =>
      rw [hc] at h
      simp only at h
      obtain ⟨hkey, -, hkeep⟩ := osCreate_spec fs fs1 destName hc
      have hcont := hkeep (fs.key srcName) hne
      have hs0 : fs.files (fs.key srcName) = some snd := hs
      rw [hs0] at hcont
      cases hs1 : fs1.files (fs.key srcName) with
      | none => rw [hs1] at hcont; cases hcont
      | some snd1 =>
        rw [hs1] at hcont
        simp only [Option.map_some', Option.some.injEq] at hcont
        obtain ⟨hav, hdata, hmode⟩ := avail_congr snd1 snd hcont
        have hnode1 : fs1.node srcName = some snd1 := by
          unfold FS.node
          rw [hkey]
          exact hs1
        by_cases hd : IsDir snd1.mode = true
        · unfold ioCopy at h
          simp only [fileRead_dir fs1 srcName snd1 _ _ hnode1 hd] at h
          cases h
        · have hd2 : IsDir snd1.mode = false := by simpa using hd
          rw [tee_loop fs1 srcName destName snd1 (by rw [hkey]; exact hne) hnode1 hd2] at h
          cases hl : lastRead srcName snd1 with
          | some e => rw [hl] at h; cases h
          | none =>
            rw [hl] at h
            simp only [Except.ok.injEq, Prod.mk.injEq] at h
            obtain ⟨⟨hn, hchk⟩, hfs2⟩ := h
            have hfull : (avail snd1).length = snd1.data.length := by
              unfold lastRead at hl
              by_contra hcon
              rw [if_neg hcon] at hl
              cases hl
            have hav2 : avail snd1 = snd.data := by
              rw [avail_eq_data snd1 hfull, hdata]
            rw [hav2] at hn hchk hfs2
            exact ⟨snd, fs1, rfl, rfl, hfs2.symm, hn.symm, hchk.symm⟩

/-- What `copyAndSha1Sum` between different files leaves unchanged: where paths lead,
and mode, bytes and fault of every file but the destination. -/
theorem copy_ne_frame (fs fs2 : FS) (srcName destName chk : String) (n : Nat)
    (hne : fs.key srcName ≠ fs.key destName)
    (h : copyAndSha1Sum fs srcName destName = .ok ((n, chk), fs2)) :
    fs2.key = fs.key ∧
    ∀ q, q ≠ fs.key destName → (fs2.files q).map Node.content = (fs.files q).map Node.content := by
  obtain ⟨snd, fs1, -, hc, hfs2, -, -⟩ := copy_ne_spec fs fs2 srcName destName chk n hne h
  obtain ⟨hkey, -, hkeep⟩ := osCreate_spec fs fs1 destName hc
  subst hfs2
  refine ⟨by rw [fileWrite_key, hkey], ?_⟩
  intro q hq
  rw [fileWrite_other _ _ _ _ (by rw [hkey]; exact hq)]
  exact hkeep q hq

/-- C4 (as amended): when the destination path does not lead to the source file itself
(under the same or another spelling, or through a link) and leads to no file or to a
regular file, a successful `copyAndSha1Sum` leaves the source as it was and a
destination file with the same bytes; the byte count returned is the size of the
source, the digest returned is the SHA-1 digest of the destination file, and `sha1Sum`
run on the destination afterwards returns the same string (when the destination device
delivers its data). -/
theorem C4_copy_roundtrip (fs fs2 : FS) (srcName destName chk : String) (n : Nat)
    (hne : fs.key srcName ≠ fs.key destName)
    (hreg : ∀ nd, fs.node destName = some nd → IsRegular nd.mode = true)
    (h : copyAndSha1Sum fs srcName destName = .ok ((n, chk), fs2)) :
    ∃ snd snd2 dnd, fs.node srcName = some snd ∧ fs2.node srcName = some snd2 ∧
      fs2.node destName = some dnd ∧
      snd2.data = snd.data ∧ dnd.data = snd.data ∧
      n = snd.data.length ∧ n = sizeAt fs srcName ∧
      chk = sha1Hex dnd.data ∧
      (dnd.fault = none → sha1Sum fs2 destName = .ok chk) := by
  obtain ⟨snd, fs1, hs, hc, hfs2, hn, hchk⟩ := copy_ne_spec fs fs2 srcName destName chk n hne h
  obtain ⟨hkey2, hframe⟩ := copy_ne_frame fs fs2 srcName destName chk n hne h
  obtain ⟨hkey, ⟨dn1, hdn1, hdata1, hdir1, hold, hnew⟩, -⟩ := osCreate_spec fs fs1 destName hc
  have hreg1 : IsRegular dn1.mode = true := by
    cases hd : fs.node destName with
    | none => rw [(hnew hd).1]; exact IsRegular_new
    | some nd => rw [(hold nd hd).1]; exact hreg nd hd
  have hnode1 : fs1.node destName = some dn1 := by
    unfold FS.node
    rw [hkey]
    exact hdn1
  have hdest : fs2.node destName = some ⟨dn1.mode, snd.data, dn1.names, dn1.fault⟩ := by
    unfold FS.node
    rw [hkey2, hfs2, fileWrite_same fs1 destName _ dn1 hnode1 hreg1, hkey, FS.set_same,
      hdata1, List.nil_append]
  have hsrc := hframe (fs.key srcName) hne
  have hs0 : fs.files (fs.key srcName) = some snd := hs
  rw [hs0] at hsrc
  cases hs2 : fs2.files (fs.key srcName) with
  | none => rw [hs2] at hsrc; cases hsrc
  | some snd2 =>
    rw [hs2] at hsrc
    simp only [Option.map_some', Option.some.injEq] at hsrc
    obtain ⟨-, hdata2, -⟩ := avail_congr snd2 snd hsrc
    have hnode2 : fs2.node srcName = some snd2 := by
      unfold FS.node
      rw [hkey2]
      exact hs2
    refine ⟨snd, snd2, _, hs, hnode2, hdest, hdata2, rfl, hn, ?_, hchk, ?_⟩
    · rw [hn]; simp [sizeAt, hs]
    · intro hf
      simp only at hf
      rw [sha1Sum_spec fs2 destName _ hdest]
      simp only [hdir1, Bool.false_eq_true, if_false]
      rw [hchk]
      simp [avail, hf]

theorem copy_same_spec (fs : FS) (srcName destName : String) (nd : Node)
    (hsame : fs.key srcName = fs.key destName)
    (h : fs.node srcName = some nd) (hnd : IsDir nd.mode = false) :
    copyAndSha1Sum fs srcName destName
      = .ok ((0, sha1Hex []), fs.set (fs.key srcName) ⟨nd.mode, [], nd.names, nd.fault⟩) := by
  have hdest : fs.node destName = some nd := by
    unfold FS.node at h ⊢
    rw [← hsame]
    exact h
  have hnode1 : (fs.set (fs.key srcName) ⟨nd.mode, [], nd.names, nd.fault⟩).node srcName
      = some ⟨nd.mode, [], nd.names, nd.fault⟩ := FS.set_same _ _ _
  have hsize : sizeAt (fs.set (fs.key srcName) ⟨nd.mode, [], nd.names, nd.fault⟩) srcName = 0 := by
    simp [sizeAt, hnode1]
  unfold copyAndSha1Sum osOpen osCreate
  simp only [h, hdest, hnd, Bool.false_eq_true, if_false, ← hsame, hsize]
  unfold ioCopy fileRead
  simp [hnode1, hnd]

theorem copy_same_of_ok (fs fs2 : FS) (srcName destName chk : String) (n : Nat)
    (hsame : fs.key srcName = fs.key destName)
    (h : copyAndSha1Sum fs srcName destName = .ok ((n, chk), fs2)) :
    n = 0 ∧ chk = sha1Hex [] ∧
      ∃ nd, fs.node srcName = some nd ∧
        fs2 = fs.set (fs.key srcName) ⟨nd.mode, [], nd.names, nd.fault⟩ := by
  cases hs : fs.node srcName with
  | none =>
    unfold copyAndSha1Sum osOpen at h
    rw [hs] at h
    cases h
  | some nd =>
    by_cases hd : IsDir nd.mode = true
    · have hdest : fs.node destName = some nd := by
        unfold FS.node at hs ⊢
        rw [← hsame]
        exact hs
      unfold copyAndSha1Sum osOpen osCreate at h
      simp only [hs, hdest, hd, if_true] at h
      cases h
    · have hd2 : IsDir nd.mode = false := by simpa using hd
      rw [copy_same_spec fs srcName destName nd hsame hs hd2] at h
      simp only [Except.ok.injEq, Prod.mk.injEq] at h
      exact ⟨h.1.1.symm, h.1.2.symm, nd, rfl, h.2.symm⟩

/-- C10: when source and destination are the same path, or two paths that lead to the
same file, and the file is not a directory, `copyAndSha1Sum` truncates the file before
it reads: whatever the content was, it returns the byte count 0 and the SHA-1 digest of
the empty input (da39a3ee5e6b4b0d3255bfef95601890afd80709) and leaves the file empty;
the worker of pcopy.go run with the source directory as destination does so for every
file. -/
theorem C10_same_path_truncates (fs : FS) (srcName destName : String) (nd : Node)
    (hsame : fs.key srcName = fs.key destName)
    (h : fs.node srcName = some nd) (hnd : IsDir nd.mode = false) :
    copyAndSha1Sum fs srcName destName
      = .ok ((0, sha1Hex []), fs.set (fs.key srcName) ⟨nd.mode, [], nd.names, nd.fault⟩) ∧
    sha1Hex [] = "da39a3ee5e6b4b0d3255bfef95601890afd80709" ∧
    sizeAt (fs.set (fs.key srcName) ⟨nd.mode, [], nd.names, nd.fault⟩) srcName = 0 ∧
    sizeAt (fs.set (fs.key srcName) ⟨nd.mode, [], nd.names, nd.fault⟩) destName = 0 ∧
    (∀ srcDir destDir f, srcName = joinPath srcDir f → destName = joinPath destDir f →
      pcopyWorker srcDir destDir fs f
        = .ok (f ++ " 0 da39a3ee5e6b4b0d3255bfef95601890afd80709",
            fs.set (fs.key srcName) ⟨nd.mode, [], nd.names, nd.fault⟩)) := by
  have hsha : sha1Hex [] = "da39a3ee5e6b4b0d3255bfef95601890afd80709" := by decide!
  have hnode1 : (fs.set (fs.key srcName) ⟨nd.mode, [], nd.names, nd.fault⟩).node srcName
      = some ⟨nd.mode, [], nd.names, nd.fault⟩ := FS.set_same _ _ _
  have hnode2 : (fs.set (fs.key srcName) ⟨nd.mode, [], nd.names, nd.fault⟩).node destName
      = some ⟨nd.mode, [], nd.names, nd.fault⟩ := by
    unfold FS.node
    show (fs.set _ _).files (fs.key destName) = _
    rw [← hsame]
    exact FS.set_same _ _ _
  have hcopy := copy_same_spec fs srcName destName nd hsame h hnd
  refine ⟨hcopy, hsha, by simp [sizeAt, hnode1], by simp [sizeAt, hnode2], ?_⟩
  intro srcDir destDir f hp hq
  unfold pcopyWorker
  simp only [← hp, ← hq, hcopy, hsha]
  have e : " " ++ (toString 0 ++ (" " ++ "da39a3ee5e6b4b0d3255bfef95601890afd80709"))
      = " 0 da39a3ee5e6b4b0d3255bfef95601890afd80709" := by decide
  rw [String.append_assoc, String.append_assoc, String.append_assoc, e]

/-! ## The goroutines -/

theorem pendingAll_set (line : String → String) (w w1 : Worker) :
    ∀ (ws : List Worker) (i : Nat), ws[i]? = some w →
      pendingAll line (ws.set i w1) + Worker.pending line w
        = pendingAll line ws + Worker.pending line w1 := by
  intro ws
  induction ws with
  | nil => intro i h; simp at h
  | cons x ws ih =>
    intro i h
    cases i with
    | zero =>
      simp only [List.getElem?_cons_zero, Option.some.injEq] at h
      subst h
      simp only [pendingAll, List.set_cons_zero, List.map_cons, List.sum_cons]
      abel
    | succ i =>
      simp only [List.getElem?_cons_succ] at h
      have := ih i h
      simp only [pendingAll, List.set_cons_succ, List.map_cons, List.sum_cons] at this ⊢
      rw [add_assoc, this]
      abel

theorem mem_of_getElem? {ws : List Worker} {i : Nat} {w : Worker} (h : ws[i]? = some w) :
    w ∈ ws := by
  obtain ⟨hi, hw⟩ := List.getElem?_eq_some.mp h
  exact hw ▸ List.getElem_mem hi

theorem mem_set_cases {ws : List Worker} {i : Nat} {w x : Worker} (h : x ∈ ws.set i w) :
    x = w ∨ x ∈ ws := by
  rcases List.mem_or_eq_of_mem_set h with h1 | h1
  · exact Or.inr h1
  · exact Or.inl h1

theorem pendingAll_done (line : String → String) :
    ∀ ws : List Worker, (∀ w ∈ ws, w = Worker.done) → pendingAll line ws = 0 := by
  intro ws
  induction ws with
  | nil => intro _; rfl
  | cons x ws ih =>
    intro h
    have hx : x = Worker.done := h x (by simp)
    have := ih (fun w hw => h w (by simp [hw]))
    simp only [pendingAll, List.map_cons, List.sum_cons] at this ⊢
    rw [this, hx]
    rfl

theorem PipeInv.init {σ : Type} (I : σ → Prop) (line : String → String) (files : List String)
    (n cap : Nat) (w0 : σ) (hI : I w0) :
    PipeInv I line files n (Pipe.init w0 files (List.replicate n Worker.idle) cap) := by
  refine ⟨hI, by simp [Pipe.init], fun f hf => hf, ?_, ?_, ?_, ?_, ?_, ?_⟩
  · intro f hf
    simp only [Pipe.init] at hf
    have := List.eq_of_mem_replicate hf
    cases this
  · intro h; simp [Pipe.init] at h
  · intro h
    simp only [Pipe.init] at h
    have := List.eq_of_mem_replicate h
    cases this
  · intro h; simp [Pipe.init] at h
  · intro h; simp [Pipe.init] at h
  · have hp : pendingAll line (List.replicate n Worker.idle) = 0 := by
      induction n with
      | zero => rfl
      | succ k ih =>
        simp only [pendingAll, List.replicate_succ, List.map_cons, List.sum_cons] at ih ⊢
        rw [ih]; rfl
    simp only [Pipe.init, hp]
    simp

theorem step_inv {σ : Type} (op : σ → String → Except Stop (String × σ)) (I : σ → Prop)
    (line : String → String) (files : List String) (n : Nat)
    (hop : ∀ w f l w1, I w → f ∈ files → op w f = .ok (l, w1) → I w1 ∧ l = line f)
    (s s1 : Pipe σ) (a : Action) (hinv : PipeInv I line files n s)
    (h : step op s a = some s1) : PipeInv I line files n s1 := by
  unfold step at h
  split at h
  · cases h
  · next hg =>
    have hnf : s.finished = false := by
      cases hf : s.finished with
      | false => rfl
      | true => exact absurd (Or.inl hf) hg
    have hns : s.stopped = none := by
      by_contra hc
      exact hg (Or.inr hc)
    cases a with
    | send i =>
      simp only at h
      split at h
      · next f rest hfeed hw =>
        simp only [Option.some.injEq] at h
        subst h
        have hidle := mem_of_getElem? hw
        have hrc : s.resultsClosed = false := by
          cases hr : s.resultsClosed with
          | false => rfl
          | true => have := hinv.res hr _ hidle; cases this
        have htc : s.todoClosed = false := by
          cases ht : s.todoClosed with
          | false => rfl
          | true => have := hinv.closed ht; rw [hfeed] at this; cases this
        refine ⟨hinv.world, by simpa using hinv.len, ?_, ?_, ?_, ?_, ?_, ?_, ?_⟩
        · intro g hgm
          exact hinv.feed g (by rw [hfeed]; simp [show g ∈ rest from hgm])
        · intro g hgm
          rcases mem_set_cases hgm with e | e
          · have e2 : g = f := by cases e; rfl
            rw [e2]
            exact hinv.feed f (by rw [hfeed]; simp)
          · exact hinv.busy g e
        · intro ht
          rw [htc] at ht; cases ht
        · intro hd
          rcases mem_set_cases hd with e | e
          · cases e
          · exact hinv.done e
        · intro hr
          rw [hrc] at hr; cases hr
        · intro hf
          rw [hnf] at hf; cases hf
        · have hc := hinv.count
          have hp := pendingAll_set line Worker.idle (Worker.busy f) s.workers i hw
          simp only [Worker.pending, add_zero] at hp
          rw [hfeed] at hc
          simp only [List.map_cons] at hc
          have e2 : ((line f :: rest.map line : List String) : Multiset String)
              = {line f} + ((rest.map line : List String) : Multiset String) := by
            rw [← Multiset.cons_coe, ← Multiset.singleton_add]
          rw [e2] at hc
          simp only
          rw [hp, ← hc]
          abel
      · cases h
    | closeTodo =>
      simp only at h
      split at h
      · next hc =>
        simp only [Option.some.injEq] at h
        subst h
        exact ⟨hinv.world, hinv.len, hinv.feed, hinv.busy, fun _ => hc.1, fun _ => rfl,
          hinv.res, hinv.fin, hinv.count⟩
      · cases h
    | work i =>
      simp only at h
      split at h
      · next f hw =>
        have hbusy := mem_of_getElem? hw
        have hff := hinv.busy f hbusy
        have hrc : s.resultsClosed = false := by
          cases hr : s.resultsClosed with
          | false => rfl
          | true => have := hinv.res hr _ hbusy; cases this
        split at h
        · next l w1 hopr =>
          simp only [Option.some.injEq] at h
          subst h
          obtain ⟨hI1, hl⟩ := hop _ _ _ _ hinv.world hff hopr
          refine ⟨hI1, by simpa using hinv.len, hinv.feed, ?_, hinv.closed, ?_, ?_, ?_, ?_⟩
          · intro g hgm
            rcases mem_set_cases hgm with e | e
            · cases e
            · exact hinv.busy g e
          · intro hd
            rcases mem_set_cases hd with e | e
            · cases e
            · exact hinv.done e
          · intro hr
            rw [hrc] at hr; cases hr
          · intro hf
            rw [hnf] at hf; cases hf
          · have hc := hinv.count
            have hp := pendingAll_set line (Worker.busy f) (Worker.sending l) s.workers i hw
            simp only [Worker.pending, hl] at hp
            have hp2 := add_right_cancel hp
            simp only
            rw [hl, hp2]
            exact hc
        · next e hopr =>
          simp only [Option.some.injEq] at h
          subst h
          refine ⟨hinv.world, hinv.len, hinv.feed, hinv.busy, hinv.closed, hinv.done,
            hinv.res, ?_, hinv.count⟩
          intro hf
          simp only at hf
          rw [hnf] at hf; cases hf
      · cases h
    | result i =>
      simp only at h
      split at h
      · next l hw =>
        have hsend := mem_of_getElem? hw
        split at h
        · next hcap =>
          simp only [Option.some.injEq] at h
          subst h
          refine ⟨hinv.world, by simpa using hinv.len, hinv.feed, ?_, hinv.closed, ?_, ?_, ?_, ?_⟩
          · intro g hgm
            rcases mem_set_cases hgm with e | e
            · cases e
            · exact hinv.busy g e
          · intro hd
            rcases mem_set_cases hd with e | e
            · cases e
            · exact hinv.done e
          · intro hr
            simp only at hr
            rw [hcap.2] at hr; cases hr
          · intro hf
            simp only at hf
            rw [hnf] at hf; cases hf
          · have hc := hinv.count
            have hp := pendingAll_set line (Worker.sending l) Worker.idle s.workers i hw
            simp only [Worker.pending, add_zero] at hp
            have e1 : ((s.results ++ [l] : List String) : Multiset String)
                = (s.results : Multiset String) + {l} := by
              rw [← Multiset.coe_add, Multiset.coe_singleton]
            simp only
            rw [e1, ← hc, ← hp]
            abel
        · cases h
      · cases h
    | exit i =>
      simp only at h
      split at h
      · next hw =>
        have hidle := mem_of_getElem? hw
        have hrc : s.resultsClosed = false := by
          cases hr : s.resultsClosed with
          | false => rfl
          | true => have := hinv.res hr _ hidle; cases this
        split at h
        · next htc =>
          simp only [Option.some.injEq] at h
          subst h
          refine ⟨hinv.world, by simpa using hinv.len, hinv.feed, ?_, hinv.closed,
            fun _ => htc, ?_, ?_, ?_⟩
          · intro g hgm
            rcases mem_set_cases hgm with e | e
            · cases e
            · exact hinv.busy g e
          · intro hr
            simp only at hr
            rw [hrc] at hr; cases hr
          · intro hf
            simp only at hf
            rw [hnf] at hf; cases hf
          · have hc := hinv.count
            have hp := pendingAll_set line Worker.idle Worker.done s.workers i hw
            simp only [Worker.pending, add_zero] at hp
            simp only
            rw [hp]
            exact hc
        · cases h
      · cases h
    | closeResults =>
      simp only at h
      split at h
      · next hc =>
        simp only [Option.some.injEq] at h
        subst h
        refine ⟨hinv.world, hinv.len, hinv.feed, hinv.busy, hinv.closed, hinv.done, ?_, ?_,
          hinv.count⟩
        · intro _ w hwm
          have := List.all_eq_true.mp hc.1 w hwm
          simpa using this
        · intro hf
          simp only at hf
          rw [hnf] at hf; cases hf
      · cases h
    | print =>
      simp only at h
      split at h
      · next l rest hres =>
        simp only [Option.some.injEq] at h
        subst h
        refine ⟨hinv.world, hinv.len, hinv.feed, hinv.busy, hinv.closed, hinv.done, hinv.res,
          ?_, ?_⟩
        · intro hf
          simp only at hf
          rw [hnf] at hf; cases hf
        · have hc := hinv.count
          rw [hres] at hc
          have e1 : ((s.output ++ [l] : List String) : Multiset String)
              = (s.output : Multiset String) + {l} := by
            rw [← Multiset.coe_add, Multiset.coe_singleton]
          have e2 : ((l :: rest : List String) : Multiset String)
              = {l} + (rest : Multiset String) := by
            rw [← Multiset.cons_coe, ← Multiset.singleton_add]
          rw [e2] at hc
          simp only
          rw [e1, ← hc]
          abel
      · cases h
    | finish =>
      simp only at h
      split at h
      · next hc =>
        simp only [Option.some.injEq] at h
        subst h
        exact ⟨hinv.world, hinv.len, hinv.feed, hinv.busy, hinv.closed, hinv.done, hinv.res,
          fun _ => ⟨hc.1, hc.2, hns⟩, hinv.count⟩
      · cases h

theorem exec_inv {σ : Type} (op : σ → String → Except Stop (String × σ)) (I : σ → Prop)
    (line : String → String) (files : List String) (n : Nat)
    (hop : ∀ w f l w1, I w → f ∈ files → op w f = .ok (l, w1) → I w1 ∧ l = line f) :
    ∀ (sched : List Action) (s s1 : Pipe σ), PipeInv I line files n s →
      exec op s sched = some s1 → PipeInv I line files n s1 := by
  intro sched
  induction sched with
  | nil =>
    intro s s1 hinv h
    simp only [exec, Option.some.injEq] at h
    exact h ▸ hinv
  | cons a rest ih =>
    intro s s1 hinv h
    unfold exec at h
    split at h
    · next s2 hstep => exact ih s2 s1 (step_inv op I line files n hop s s2 a hinv hstep) h
    · cases h

theorem PipeInv.final {σ : Type} {I : σ → Prop} {line : String → String} {files : List String}
    {n : Nat} {s : Pipe σ} (hinv : PipeInv I line files n s) (hn : 1 ≤ n)
    (hfin : s.finished = true) :
    s.output.Perm (files.map line) ∧ s.stopped = none := by
  obtain ⟨hrc, hres, hstop⟩ := hinv.fin hfin
  have hall := hinv.res hrc
  have hp := pendingAll_done line s.workers hall
  have hne : s.workers ≠ [] := by
    intro e
    have := hinv.len
    rw [e] at this
    simp at this
    omega
  obtain ⟨w, hw⟩ := List.exists_mem_of_ne_nil _ hne
  have hd : Worker.done ∈ s.workers := hall w hw ▸ hw
  have hfeed := hinv.closed (hinv.done hd)
  have hc := hinv.count
  rw [hres, hp, hfeed] at hc
  simp only [List.map_nil, Multiset.coe_nil, add_zero] at hc
  exact ⟨Multiset.coe_eq_coe.mp hc, hstop⟩

theorem psha1sumWorker_line (fs : FS) (dir f l : String) (w1 : FS)
    (h : psha1sumWorker dir fs f = .ok (l, w1)) :
    w1 = fs ∧ l = psha1sumLine fs dir f := by
  unfold psha1sumWorker at h
  simp only at h
  cases hnd : fs.node (joinPath dir f) with
  | none =>
    have e : sha1Sum fs (joinPath dir f)
        = .error (.fatal ("sha1Sum: " ++ ("open " ++ joinPath dir f
            ++ ": no such file or directory"))) := by
      simp [sha1Sum, osOpen, hnd]
    rw [e] at h
    cases h
  | some nd =>
    rw [sha1Sum_spec fs _ nd hnd] at h
    simp only [Except.ok.injEq, Prod.mk.injEq] at h
    refine ⟨h.2.symm, ?_⟩
    rw [← h.1]
    simp [psha1sumLine, hashedAt, hnd]

theorem pcopyWorker_line (fs : FS) (srcDir destDir : String) (files : List String)
    (hx : ∀ f ∈ files, ∀ g ∈ files, f ≠ g →
      fs.key (joinPath destDir f) ≠ fs.key (joinPath srcDir g))
    (w : FS) (f l : String) (w1 : FS) (hI : SourcesKept fs srcDir destDir files w)
    (hf : f ∈ files) (h : pcopyWorker srcDir destDir w f = .ok (l, w1)) :
    SourcesKept fs srcDir destDir files w1 ∧ l = pcopyLine fs srcDir destDir f := by
  obtain ⟨hkey, hkeep⟩ := hI
  unfold pcopyWorker at h
  simp only at h
  cases hc : copyAndSha1Sum w (joinPath srcDir f) (joinPath destDir f) with
  | error e => rw [hc] at h; cases h
  | ok r =>
    obtain ⟨⟨n, chk⟩, w2⟩ := r
    rw [hc] at h
    simp only [Except.ok.injEq, Prod.mk.injEq] at h
    obtain ⟨hl, hw⟩ := h
    subst hw
    have hother : ∀ g ∈ files, fs.key (joinPath srcDir g) ≠ fs.key (joinPath destDir g) →
        fs.key (joinPath srcDir g) ≠ fs.key (joinPath destDir f) := by
      intro g hg hgne heq
      by_cases hfg : f = g
      · subst hfg; exact hgne heq
      · exact hx f hf g hg hfg heq.symm
    by_cases hk : fs.key (joinPath srcDir f) = fs.key (joinPath destDir f)
    · obtain ⟨hn, hchk, nd, -, hw2⟩ := copy_same_of_ok w w2 _ _ chk n
        (by rw [hkey]; exact hk) hc
      subst hn hchk hw2
      refine ⟨⟨by simpa [FS.set] using hkey, ?_⟩, ?_⟩
      · intro g hg hgne
        have hq : fs.key (joinPath srcDir g) ≠ w.key (joinPath srcDir f) := by
          rw [hkey, hk]
          exact hother g hg hgne
        rw [FS.set_other _ _ _ _ hq]
        exact hkeep g hg hgne
      · rw [← hl]
        simp only [pcopyLine, hk, if_true]
        rfl
    · have hne : w.key (joinPath srcDir f) ≠ w.key (joinPath destDir f) := by
        rw [hkey]; exact hk
      obtain ⟨snd, -, hs, -, -, hn, hchk⟩ := copy_ne_spec w w2 _ _ chk n hne hc
      obtain ⟨hkey2, hframe⟩ := copy_ne_frame w w2 _ _ chk n hne hc
      refine ⟨⟨by rw [hkey2, hkey], ?_⟩, ?_⟩
      · intro g hg hgne
        rw [hframe _ (by rw [hkey]; exact hother g hg hgne)]
        exact hkeep g hg hgne
      · have hv := hkeep f hf hk
        have hs0 : w.files (fs.key (joinPath srcDir f)) = some snd := by
          unfold FS.node at hs
          rw [hkey] at hs
          exact hs
        rw [hs0] at hv
        cases h0 : fs.files (fs.key (joinPath srcDir f)) with
        | none => rw [h0] at hv; cases hv
        | some snd0 =>
          rw [h0] at hv
          simp only [Option.map_some', Option.some.injEq] at hv
          obtain ⟨-, hdata, -⟩ := avail_congr snd snd0 hv
          have hn0 : fs.node (joinPath srcDir f) = some snd0 := h0
          rw [← hl, hn, hchk, hdata]
          simp only [pcopyLine, hk, if_false, sizeAt, dataAt, hn0]
          rfl

/-- C3 (as amended): for every file list and all worker counts in [1, 30], every
schedule of the feeder, the workers and the collector that runs to the end of `main`
prints, up to order, exactly one line per listed file and no goroutine has called
`log.Fatal`.  In psha1sum.go the line of `f` is `psha1sumLine`; in pcopy.go it is
`pcopyLine`, provided no destination path leads to the source of another listed file.
Both are fixed by the file system the run starts in, so the lines printed do not
depend on the worker count or the schedule. -/
theorem C3_results_multiset (fs : FS) (dir srcDir destDir : String) (files : List String)
    (n m : Nat) (sched1 sched2 : List Action) (s1 s2 : Pipe FS)
    (hn1 : 1 ≤ n) (hn30 : n ≤ 30) (hm1 : 1 ≤ m) (hm30 : m ≤ 30)
    (hx : ∀ f ∈ files, ∀ g ∈ files, f ≠ g →
      fs.key (joinPath destDir f) ≠ fs.key (joinPath srcDir g))
    (hrun1 : exec (psha1sumWorker dir)
      (Pipe.init fs files (List.replicate n Worker.idle) n) sched1 = some s1)
    (hfin1 : s1.finished = true)
    (hrun2 : exec (pcopyWorker srcDir destDir)
      (Pipe.init fs files (List.replicate m Worker.idle) m) sched2 = some s2)
    (hfin2 : s2.finished = true) :
    s1.output.Perm (files.map (psha1sumLine fs dir)) ∧
    s1.output.length = files.length ∧ s1.stopped = none ∧
    s2.output.Perm (files.map (pcopyLine fs srcDir destDir)) ∧
    s2.output.length = files.length ∧ s2.stopped = none := by
  have _ := hn30
  have _ := hm30
  have hinv1 := exec_inv (psha1sumWorker dir) (fun w => w = fs) (psha1sumLine fs dir) files n
    (fun w f l w1 hw _ h => by subst hw; exact psha1sumWorker_line w dir f l w1 h)
    sched1 _ s1 (PipeInv.init (fun w => w = fs) _ files n n fs rfl) hrun1
  have hinv2 := exec_inv (pcopyWorker srcDir destDir) (SourcesKept fs srcDir destDir files)
    (pcopyLine fs srcDir destDir) files m
    (fun w f l w1 hw hf h => pcopyWorker_line fs srcDir destDir files hx w f l w1 hw hf h)
    sched2 _ s2
    (PipeInv.init (SourcesKept fs srcDir destDir files) _ files m m fs ⟨rfl, fun _ _ _ => rfl⟩)
    hrun2
  obtain ⟨hperm1, hstop1⟩ := hinv1.final hn1 hfin1
  obtain ⟨hperm2, hstop2⟩ := hinv2.final hm1 hfin2
  exact ⟨hperm1, by simpa using hperm1.length_eq, hstop1, hperm2,
    by simpa using hperm2.length_eq, hstop2⟩

/-! ## A run to the end exists -/

theorem exec_append {σ : Type} (op : σ → String → Except Stop (String × σ)) :
    ∀ (a b : List Action) (s s1 : Pipe σ), exec op s a = some s1 →
      exec op s (a ++ b) = exec op s1 b := by
  intro a
  induction a with
  | nil =>
    intro b s s1 h
    simp only [exec, Option.some.injEq] at h
    rw [List.nil_append, h]
  | cons x a ih =>
    intro b s s1 h
    have e : ∀ (t : Pipe σ) (y : Action) (l : List Action), exec op t (y :: l)
        = (match step op t y with | some t1 => exec op t1 l | none => none) :=
      fun _ _ _ => rfl
    rw [List.cons_append, e]
    rw [e] at h
    cases hx : step op s x with
    | none => rw [hx] at h; cases h
    | some s2 =>
      rw [hx] at h
      exact ih b s2 s1 h

theorem exec_round {σ : Type} (op : σ → String → Except Stop (String × σ)) (w w1 : σ)
    (f l : String) (rest out : List String) (ws : List Worker) (cap : Nat) (hcap : 0 < cap)
    (hop : op w f = .ok (l, w1)) :
    exec op ⟨w, f :: rest, false, Worker.idle :: ws, cap, [], false, out, false, none⟩
        [Action.send 0, Action.work 0, Action.result 0, Action.print]
      = some ⟨w1, rest, false, Worker.idle :: ws, cap, [], false, out ++ [l], false, none⟩ := by
  simp [exec, step, hop, hcap]

theorem exec_files {σ : Type} (op : σ → String → Except Stop (String × σ)) (I : σ → Prop)
    (files : List String) (ws : List Worker) (cap : Nat) (hcap : 0 < cap)
    (hop : ∀ w f, I w → f ∈ files → ∃ l w1, op w f = .ok (l, w1) ∧ I w1) :
    ∀ (todo out : List String) (w : σ), I w → (∀ f ∈ todo, f ∈ files) →
      ∃ w1 out1, I w1 ∧
        exec op ⟨w, todo, false, Worker.idle :: ws, cap, [], false, out, false, none⟩
          (todo.flatMap
            (fun _ => [Action.send 0, Action.work 0, Action.result 0, Action.print]))
        = some ⟨w1, [], false, Worker.idle :: ws, cap, [], false, out1, false, none⟩ := by
  intro todo
  induction todo with
  | nil => intro out w hI _; exact ⟨w, out, hI, rfl⟩
  | cons f rest ih =>
    intro out w hI hsub
    obtain ⟨l, w1, hl, hI1⟩ := hop w f hI (hsub f (by simp))
    obtain ⟨w2, out2, hI2, h2⟩ := ih (out ++ [l]) w1 hI1 (fun g hg => hsub g (by simp [hg]))
    refine ⟨w2, out2, hI2, ?_⟩
    rw [List.flatMap_cons,
      exec_append op _ _ _ _ (exec_round op w w1 f l rest out ws cap hcap hl)]
    exact h2

theorem exec_exits {σ : Type} (op : σ → String → Except Stop (String × σ)) (w : σ)
    (cap : Nat) (out : List String) :
    ∀ (m : Nat) (pre : List Worker), (∀ x ∈ pre, x = Worker.done) →
      ∃ ws, (∀ x ∈ ws, x = Worker.done) ∧ ws.length = pre.length + m ∧
        exec op ⟨w, [], true, pre ++ List.replicate m Worker.idle, cap, [], false, out,
            false, none⟩
          ((List.range' pre.length m).map Action.exit)
        = some ⟨w, [], true, ws, cap, [], false, out, false, none⟩ := by
  intro m
  induction m with
  | zero =>
    intro pre hpre
    exact ⟨pre, hpre, rfl, by simp [exec]⟩
  | succ m ih =>
    intro pre hpre
    obtain ⟨ws, hws, hlen, hex⟩ := ih (pre ++ [Worker.done]) (by
      intro x hx
      rcases List.mem_append.mp hx with h | h
      · exact hpre x h
      · simpa using h)
    refine ⟨ws, hws, by simp at hlen; omega, ?_⟩
    have hget : (pre ++ Worker.idle :: List.replicate m Worker.idle)[pre.length]?
        = some Worker.idle := by
      rw [List.getElem?_append_right (le_refl _)]
      simp
    have hset : (pre ++ Worker.idle :: List.replicate m Worker.idle).set pre.length Worker.done
        = (pre ++ [Worker.done]) ++ List.replicate m Worker.idle := by
      rw [List.set_append_right _ _ (le_refl _)]
      simp
    rw [List.range'_succ, List.map_cons, List.replicate_succ]
    unfold exec
    have hstep : step op ⟨w, [], true, pre ++ Worker.idle :: List.replicate m Worker.idle,
        cap, [], false, out, false, none⟩ (Action.exit pre.length)
        = some ⟨w, [], true, (pre ++ [Worker.done]) ++ List.replicate m Worker.idle, cap, [],
            false, out, false, none⟩ := by
      simp only [step, hget, hset]
      simp
    rw [hstep]
    simp only
    have hl : (pre ++ [Worker.done]).length = pre.length + 1 := by simp
    rw [hl] at hex
    exact hex

/-- For every file list and every worker count `n ≥ 1`, when the per-file operation
succeeds on every listed file, the schedule `seqSched files n` runs to the end of
`main`. -/
theorem exists_complete_run {σ : Type} (op : σ → String → Except Stop (String × σ))
    (I : σ → Prop) (files : List String) (n : Nat) (w0 : σ) (hn : 1 ≤ n) (hI : I w0)
    (hop : ∀ w f, I w → f ∈ files → ∃ l w1, op w f = .ok (l, w1) ∧ I w1) :
    ∃ s, exec op (Pipe.init w0 files (List.replicate n Worker.idle) n) (seqSched files n)
        = some s ∧ s.finished = true := by
  obtain ⟨m, rfl⟩ : ∃ m, n = m + 1 := ⟨n - 1, by omega⟩
  obtain ⟨w1, out1, -, h1⟩ := exec_files op I files (List.replicate m Worker.idle) (m + 1)
    (by omega) hop files [] w0 hI (fun f hf => hf)
  obtain ⟨ws, hws, -, h3⟩ := exec_exits op w1 (m + 1) out1 (m + 1) [] (by simp)
  have h2 : exec op ⟨w1, [], false, Worker.idle :: List.replicate m Worker.idle, m + 1, [],
      false, out1, false, none⟩ [Action.closeTodo]
      = some ⟨w1, [], true, [] ++ List.replicate (m + 1) Worker.idle, m + 1, [], false, out1,
          false, none⟩ := by
    simp [exec, step, List.replicate_succ]
  have hall : (ws.all fun x => x == Worker.done) = true := by
    rw [List.all_eq_true]
    intro x hx
    rw [hws x hx]
    rfl
  have h4 : exec op ⟨w1, [], true, ws, m + 1, [], false, out1, false, none⟩
      [Action.closeResults, Action.finish]
      = some ⟨w1, [], true, ws, m + 1, [], true, out1, true, none⟩ := by
    simp [exec, step, hall]
  refine ⟨⟨w1, [], true, ws, m + 1, [], true, out1, true, none⟩, ?_, rfl⟩
  unfold seqSched
  rw [List.append_assoc, List.append_assoc]
  rw [exec_append op _ _ _ _ (by simpa [Pipe.init, List.replicate_succ] using h1)]
  rw [exec_append op _ _ _ _ h2]
  rw [exec_append op _ _ _ _ (by simpa using h3)]
  exact h4

/-! ## Closed instances -/

theorem filesIn_demo : filesIn fsDemo "src" = .ok ["a.txt"] := by decide

theorem sha1Sum_demo :
    sha1Sum fsDemo (joinPath "src" "a.txt") = .ok "a9993e364706816aba3e25717850c26c9cd0d89d" := by
  decide!

theorem psha1sumWorker_demo (f l : String) (w1 : FS) (hf : f ∈ ["a.txt"])
    (h : psha1sumWorker "src" fsDemo f = .ok (l, w1)) : w1 = fsDemo ∧ l = demoLine f := by
  simp only [List.mem_singleton] at hf
  subst hf
  unfold psha1sumWorker at h
  simp only [sha1Sum_demo, Except.ok.injEq, Prod.mk.injEq] at h
  exact ⟨h.2.symm, h.1.symm⟩

theorem psha1sumMain_demo :
    psha1sumMain fsDemo 1 "src" = .ok (Pipe.init fsDemo ["a.txt"] [Worker.idle] 1) := by
  unfold psha1sumMain
  simp only [filesIn_demo]
  rfl

/-- C7 (as amended): over the directory `src` of `fsDemo` (the regular file `a.txt`
with content "abc", the directory `sub`, the symbolic link `link`), every run of
psha1sum.go with worker count 1 that reaches the end of `main` has printed exactly one
line, `a.txt: a9993e364706816aba3e25717850c26c9cd0d89d`: the SHA-1 digest of "abc" has
40 digits and ends in `89d`. -/
theorem C7_abc_run (sched : List Action) (s : Pipe FS)
    (hrun : psha1sumRun fsDemo 1 "src" sched = some s) (hfin : s.finished = true) :
    s.output = ["a.txt: a9993e364706816aba3e25717850c26c9cd0d89d"] ∧ s.stopped = none ∧
      sha1Hex [97, 98, 99] = "a9993e364706816aba3e25717850c26c9cd0d89d" := by
  unfold psha1sumRun at hrun
  rw [psha1sumMain_demo] at hrun
  simp only at hrun
  have hinv := exec_inv (psha1sumWorker "src") (fun w => w = fsDemo) demoLine ["a.txt"] 1
    (fun w f l w1 hw hf h => by subst hw; exact psha1sumWorker_demo f l w1 hf h)
    sched _ s (PipeInv.init (fun w => w = fsDemo) demoLine ["a.txt"] 1 1 fsDemo rfl) hrun
  obtain ⟨hperm, hstop⟩ := hinv.final (le_refl 1) hfin
  refine ⟨?_, hstop, by decide!⟩
  simpa [demoLine] using List.perm_singleton.mp hperm

theorem demo_run_finished :
    (psha1sumRun fsDemo 1 "src" demoSched).map (fun s => s.finished) = some true := by
  decide!

/-- Witness of C7: the schedule `demoSched` is such a run. -/
theorem C7_abc_run_witness :
    ∃ s, psha1sumRun fsDemo 1 "src" demoSched = some s ∧ s.finished = true ∧
      s.output = ["a.txt: a9993e364706816aba3e25717850c26c9cd0d89d"] := by
  have h2 := demo_run_finished
  cases hs : psha1sumRun fsDemo 1 "src" demoSched with
  | none => rw [hs] at h2; cases h2
  | some s =>
    rw [hs] at h2
    simp only [Option.map_some', Option.some.injEq] at h2
    exact ⟨s, rfl, h2, (C7_abc_run demoSched s hs h2).1⟩

/-- Counterexample to C7 as stated: the digest printed for "abc" is not the
39-character string a9993e364706816aba3e25717850c26c9cd0d89, and the line of the run is
not `a.txt: ` followed by that string. -/
theorem C7_digest_is_not_39_chars :
    sha1Hex [97, 98, 99] ≠ "a9993e364706816aba3e25717850c26c9cd0d89" ∧
    "a9993e364706816aba3e25717850c26c9cd0d89".length = 39 ∧
    (sha1Hex [97, 98, 99]).length = 40 ∧
    (psha1sumRun fsDemo 1 "src" demoSched).map (fun s => s.output)
      ≠ some ["a.txt: a9993e364706816aba3e25717850c26c9cd0d89"] := by
  decide!

/-- C6 (as amended): when nothing is at the destination path, so that `os.Open` fails,
a run of pcopy.go stops in `main` before the goroutines exist: no schedule has a step,
nothing is queued, no worker runs and the file system is the initial one; for a worker
count that is not negative the stop is the `log.Fatal` of the directory check. -/
theorem C6_missing_dest_aborts (fs : FS) (n : Int) (srcDir destDir : String)
    (sched : List Action) (s : Pipe FS) (hmiss : fs.node destDir = none)
    (hrun : pcopyRun fs n srcDir destDir sched = some s) :
    sched = [] ∧ isThere fs destDir = false ∧
    (∃ e, pcopyMain fs n srcDir destDir = .error e ∧ s.stopped = some e) ∧
    s.world = fs ∧ s.feeder = [] ∧ s.workers = [] ∧ s.output = [] ∧
    (0 ≤ n → s.stopped = some (.fatal ("Can't find directory " ++ destDir))) := by
  have hthere : isThere fs destDir = false := by simp [isThere, osOpen, hmiss]
  have hmain : ∃ e, pcopyMain fs n srcDir destDir = .error e ∧
      (0 ≤ n → e = .fatal ("Can't find directory " ++ destDir)) := by
    unfold pcopyMain
    simp only [hthere]
    cases hc : makeChan (clampWorkers n) with
    | error e =>
      refine ⟨e, rfl, fun hn => ?_⟩
      rw [makeChan_clamp n hn] at hc
      cases hc
    | ok cap => exact ⟨_, rfl, fun _ => rfl⟩
  obtain ⟨e, he, hfatal⟩ := hmain
  unfold pcopyRun at hrun
  rw [he] at hrun
  cases sched with
  | cons a rest => cases hrun
  | nil =>
    simp only [Option.some.injEq] at hrun
    subst hrun
    exact ⟨rfl, hthere, ⟨e, he, rfl⟩, rfl, rfl, rfl, rfl, fun hn => by rw [hfatal hn]⟩

/-- Witness of C6: `fsDemo` has nothing at `nowhere`. -/
theorem C6_missing_dest_aborts_witness :
    fsDemo.node "nowhere" = none ∧
    ∃ s, pcopyRun fsDemo 1 "src" "nowhere" [] = some s ∧ s.feeder = [] ∧ s.workers = [] ∧
      s.stopped = some (.fatal "Can't find directory nowhere") := by
  have h1 : (pcopyRun fsDemo 1 "src" "nowhere" []).isSome = true := by decide!
  obtain ⟨s, hs⟩ := Option.isSome_iff_exists.mp h1
  have h := C6_missing_dest_aborts fsDemo 1 "src" "nowhere" [] s (by decide) hs
  exact ⟨by decide, s, hs, h.2.2.2.2.1, h.2.2.2.2.2.1, h.2.2.2.2.2.2.2 (by decide)⟩

/-- Counterexample to C6 as stated: in `fsDestFile` the destination path `dst` is a
regular file, not a directory; `isThere` accepts it, `a.txt` is sent on the queue, the
worker calls `copyAndSha1Sum`, and only there does the run stop. -/
theorem C6_dest_is_a_file :
    (fsDestFile.node "dst").map (fun nd => IsDir nd.mode) = some false ∧
    isThere fsDestFile "dst" = true ∧
    (pcopyRun fsDestFile 1 "src" "dst" []).map (fun s => (s.feeder, s.stopped))
      = some (["a.txt"], none) ∧
    (pcopyRun fsDestFile 1 "src" "dst" [.send 0]).map (fun s => (s.workers, s.stopped))
      = some ([Worker.busy "a.txt"], none) ∧
    (pcopyRun fsDestFile 1 "src" "dst" [.send 0, .work 0]).map (fun s => s.stopped)
      = some (some (.fatal "copyAndSha1Sum: open dst/a.txt: not a directory")) := by
  decide!

theorem sha1Sum_error_iff (fs : FS) (path : String) :
    (∃ e, sha1Sum fs path = .error e) ↔ fs.node path = none := by
  constructor
  · rintro ⟨e, he⟩
    cases hnd : fs.node path with
    | none => rfl
    | some nd => rw [sha1Sum_spec fs path nd hnd] at he; cases he
  · intro h
    refine ⟨.fatal ("sha1Sum: " ++ ("open " ++ path ++ ": no such file or directory")), ?_⟩
    simp [sha1Sum, osOpen, h]

/-- C5, the code at the failing input: in `fsFault` the read of `a.txt` fails after one
byte; `sha1Sum` does not stop the run but returns the SHA-1 digest of that one byte,
which is not the digest of the file, and the run prints a line for `a.txt` and ends
normally. -/
theorem C5_read_error_is_not_fatal :
    fileRead fsFault "src/a.txt" 1 copyBufSize = .err "read src/a.txt: input/output error" ∧
    sha1Sum fsFault (joinPath "src" "a.txt") = .ok "86f7e437faa5a7fce15d1ddcb9eaeaea377667b8" ∧
    sha1Hex [97] = "86f7e437faa5a7fce15d1ddcb9eaeaea377667b8" ∧
    sha1Hex [97, 98, 99] ≠ "86f7e437faa5a7fce15d1ddcb9eaeaea377667b8" ∧
    (psha1sumRun fsFault 1 "src" demoSched).map (fun s => (s.output, s.finished, s.stopped))
      = some (["a.txt: 86f7e437faa5a7fce15d1ddcb9eaeaea377667b8"], true, none) := by
  decide!

/-- Counterexample to C1 as stated: for the requested count -1 no worker is started
(not `min (-1) 30 = -1` of them) and `make(chan string, -1)` panics, in both programs. -/
theorem C1_negative_count :
    min (-1 : Int) 30 = -1 ∧
    ((startWorkers (clampWorkers (-1)) (clampWorkers (-1)).toNat 0 []).length : Int)
      ≠ min (-1 : Int) 30 ∧
    makeChan (clampWorkers (-1)) = .error (.panic "makechan: size out of range") ∧
    (psha1sumRun fsDemo (-1) "src" []).map (fun s => (s.workers.length, s.stopped))
      = some (0, some (.panic "makechan: size out of range")) ∧
    (pcopyRun fsDemo (-1) "src" "dst" []).map (fun s => (s.workers.length, s.stopped))
      = some (0, some (.panic "makechan: size out of range")) := by
  decide!

/-- Witness of C1: a request of 31 workers on `fsDemo`. -/
theorem C1_pool_size_witness :
    (0 : Int) ≤ 31 ∧ clampWorkers 31 = min 31 30 ∧
    makeChan (clampWorkers 31) = .ok (min (31 : Int) 30).toNat ∧
    psha1sumMain fsDemo 31 "src" = psha1sumMain fsDemo 30 "src" ∧
    pcopyMain fsDemo 31 "src" "dst" = pcopyMain fsDemo 30 "src" "dst" := by
  have h := C1_pool_size 31 (by decide) fsDemo "src" "dst"
  exact ⟨by decide, h.1, h.2.1, (h.2.2.2.2.2 (by decide)).1, (h.2.2.2.2.2 (by decide)).2⟩

/-- Witness of C2: the directory `src` of `fsDemo`. -/
theorem C2_filesIn_regular_witness :
    ∃ r, filesIn fsDemo "src" = .ok r ∧
      r = ["a.txt", "sub", "link"].filter (lstatRegular fsDemo "src") ∧ r.Nodup ∧
      r.count "a.txt" = 1 ∧ r.count "sub" = 0 ∧ r.count "link" = 0 := by
  obtain ⟨r, h1, h2, h3, -, h5, h6⟩ := C2_filesIn_regular fsDemo "src"
    ⟨ModeDir ||| 0o755, [], ["a.txt", "sub", "link"], none⟩
    (by decide) (by decide) (by decide) (by decide) (by decide)
  exact ⟨r, h1, h2, h3, h5 "a.txt" (by decide) (by decide), h6 "sub" (by decide),
    h6 "link" (by decide)⟩

theorem two_runs_finished :
    (exec (psha1sumWorker "src")
      (Pipe.init fsTwo ["a.txt", "b.txt"] (List.replicate 2 Worker.idle) 2) schedBA).map
        (fun s => (s.finished, s.output))
      = some (true, ["b.txt: 86f7e437faa5a7fce15d1ddcb9eaeaea377667b8",
          "a.txt: a9993e364706816aba3e25717850c26c9cd0d89d"]) ∧
    (exec (pcopyWorker "src" "dst")
      (Pipe.init fsTwo ["a.txt", "b.txt"] (List.replicate 2 Worker.idle) 2) schedBA).map
        (fun s => (s.finished, s.output))
      = some (true, ["b.txt 1 86f7e437faa5a7fce15d1ddcb9eaeaea377667b8",
          "a.txt 3 a9993e364706816aba3e25717850c26c9cd0d89d"]) := by
  decide!

/-- Witness of C3: both programs on the two files of `fsTwo` with two workers, under a
schedule in which the second file is finished and printed first. -/
theorem C3_results_multiset_witness :
    ∃ s1 s2,
      exec (psha1sumWorker "src")
        (Pipe.init fsTwo ["a.txt", "b.txt"] (List.replicate 2 Worker.idle) 2) schedBA
        = some s1 ∧
      exec (pcopyWorker "src" "dst")
        (Pipe.init fsTwo ["a.txt", "b.txt"] (List.replicate 2 Worker.idle) 2) schedBA
        = some s2 ∧
      s1.output = ["b.txt: 86f7e437faa5a7fce15d1ddcb9eaeaea377667b8",
        "a.txt: a9993e364706816aba3e25717850c26c9cd0d89d"] ∧
      s1.output.Perm (["a.txt", "b.txt"].map (psha1sumLine fsTwo "src")) ∧
      s2.output = ["b.txt 1 86f7e437faa5a7fce15d1ddcb9eaeaea377667b8",
        "a.txt 3 a9993e364706816aba3e25717850c26c9cd0d89d"] ∧
      s2.output.Perm (["a.txt", "b.txt"].map (pcopyLine fsTwo "src" "dst")) := by
  obtain ⟨h1, h2⟩ := two_runs_finished
  cases hs1 : exec (psha1sumWorker "src")
      (Pipe.init fsTwo ["a.txt", "b.txt"] (List.replicate 2 Worker.idle) 2) schedBA with
  | none => rw [hs1] at h1; cases h1
  | some s1 =>
    cases hs2 : exec (pcopyWorker "src" "dst")
        (Pipe.init fsTwo ["a.txt", "b.txt"] (List.replicate 2 Worker.idle) 2) schedBA with
    | none => rw [hs2] at h2; cases h2
    | some s2 =>
      rw [hs1] at h1
      rw [hs2] at h2
      simp only [Option.map_some', Option.some.injEq, Prod.mk.injEq] at h1 h2
      have h := C3_results_multiset fsTwo "src" "src" "dst" ["a.txt", "b.txt"] 2 2
        schedBA schedBA s1 s2 (by decide) (by decide) (by decide) (by decide) (by decide)
        hs1 h1.1 hs2 h2.1
      exact ⟨s1, s2, rfl, rfl, h1.2, h.1, h2.2, h.2.2.2.1⟩

/-- Counterexample to C3 as stated: in `fsLinked` the destination `dst/a.txt` is a hard
link to the source `src/b.txt`.  Two runs of pcopy.go with two workers both end without
error; when `a.txt` is copied first the line of `b.txt` carries the size and digest of
"abc", when `b.txt` is copied first it carries those of "a". -/
theorem C3_linked_destination :
    (pcopyRun fsLinked 2 "src" "dst" schedAB).map (fun s => (s.output, s.finished, s.stopped))
      = some (["a.txt 3 a9993e364706816aba3e25717850c26c9cd0d89d",
          "b.txt 3 a9993e364706816aba3e25717850c26c9cd0d89d"], true, none) ∧
    (pcopyRun fsLinked 2 "src" "dst" schedBA).map (fun s => (s.output, s.finished, s.stopped))
      = some (["b.txt 1 86f7e437faa5a7fce15d1ddcb9eaeaea377667b8",
          "a.txt 3 a9993e364706816aba3e25717850c26c9cd0d89d"], true, none) ∧
    "b.txt 1 86f7e437faa5a7fce15d1ddcb9eaeaea377667b8"
      ∉ ["a.txt 3 a9993e364706816aba3e25717850c26c9cd0d89d",
          "b.txt 3 a9993e364706816aba3e25717850c26c9cd0d89d"] := by
  decide!

/-- Counterexample to C4 as stated.  With the source `src/a.txt` (3 bytes) as its own
destination, under the same spelling or as `src//a.txt`, `copyAndSha1Sum` succeeds and
returns the byte count 0, not 3.  With the device `dev/null` as destination it returns
the digest of "abc", and the digest recomputed from the destination is that of the
empty input. -/
theorem C4_same_file_or_device :
    sizeAt fsDemo "src/a.txt" = 3 ∧
    (copyAndSha1Sum fsDemo "src/a.txt" "src/a.txt").map (fun r => r.1)
      = .ok (0, "da39a3ee5e6b4b0d3255bfef95601890afd80709") ∧
    "src/a.txt" ≠ "src//a.txt" ∧ sizeAt fsAlias "src/a.txt" = 3 ∧
    (copyAndSha1Sum fsAlias "src/a.txt" "src//a.txt").map (fun r => r.1)
      = .ok (0, "da39a3ee5e6b4b0d3255bfef95601890afd80709") ∧
    (copyAndSha1Sum fsAlias "src/a.txt" "dev/null").map
        (fun r => (r.1, sha1Sum r.2 "dev/null"))
      = .ok ((3, "a9993e364706816aba3e25717850c26c9cd0d89d"),
          .ok "da39a3ee5e6b4b0d3255bfef95601890afd80709") := by
  decide!

theorem demo_copy :
    (copyAndSha1Sum fsDemo "src/a.txt" "dst/a.txt").map (fun r => r.1)
      = .ok (3, "a9993e364706816aba3e25717850c26c9cd0d89d") := by
  decide!

/-- Witness of C4: copying `src/a.txt` to `dst/a.txt` in `fsDemo`. -/
theorem C4_copy_roundtrip_witness :
    fsDemo.key "src/a.txt" ≠ fsDemo.key "dst/a.txt" ∧ fsDemo.node "dst/a.txt" = none ∧
    ∃ fs2, copyAndSha1Sum fsDemo "src/a.txt" "dst/a.txt"
        = .ok ((3, "a9993e364706816aba3e25717850c26c9cd0d89d"), fs2) ∧
      ∃ dnd, fs2.node "dst/a.txt" = some dnd ∧ dnd.data = [97, 98, 99] ∧
        "a9993e364706816aba3e25717850c26c9cd0d89d" = sha1Hex dnd.data := by
  have hnone : fsDemo.node "dst/a.txt" = none := by decide
  refine ⟨by decide, hnone, ?_⟩
  have h := demo_copy
  cases hc : copyAndSha1Sum fsDemo "src/a.txt" "dst/a.txt" with
  | error e => rw [hc] at h; cases h
  | ok r =>
    obtain ⟨⟨n, chk⟩, fs2⟩ := r
    rw [hc] at h
    simp only [Except.map, Except.ok.injEq, Prod.mk.injEq] at h
    obtain ⟨hn, hchk⟩ := h
    subst hn hchk
    obtain ⟨snd, snd2, dnd, h1, -, h3, -, h5, -, -, h8, -⟩ :=
      C4_copy_roundtrip fsDemo fs2 "src/a.txt" "dst/a.txt" _ 3 (by decide)
        (fun nd hnd => by rw [hnone] at hnd; cases hnd) hc
    have hsnd : snd.data = [97, 98, 99] := by
      have e : fsDemo.node "src/a.txt" = some ⟨0o644, [97, 98, 99], [], none⟩ := by decide
      rw [e] at h1
      cases h1
      rfl
    exact ⟨fs2, rfl, dnd, h3, by rw [h5, hsnd], h8⟩

theorem demo_workers :
    (pcopyWorker "src" "dst" fsDemo "a.txt").map (fun r => r.1)
      = .ok "a.txt 3 a9993e364706816aba3e25717850c26c9cd0d89d" ∧
    (psha1sumWorker "src" fsDemo "a.txt").map (fun r => r.1)
      = .ok "a.txt: a9993e364706816aba3e25717850c26c9cd0d89d" := by
  decide!

/-- Witness of C8: the lines both workers produce for `a.txt` of `fsDemo`. -/
theorem C8_result_line_witness :
    ∃ (fs1 gs1 : FS) (n : Nat) (chk1 chk2 : String),
      pcopyWorker "src" "dst" fsDemo "a.txt"
        = .ok ("a.txt 3 a9993e364706816aba3e25717850c26c9cd0d89d", fs1) ∧
      psha1sumWorker "src" fsDemo "a.txt"
        = .ok ("a.txt: a9993e364706816aba3e25717850c26c9cd0d89d", gs1) ∧
      copyAndSha1Sum fsDemo (joinPath "src" "a.txt") (joinPath "dst" "a.txt")
        = .ok ((n, chk1), fs1) ∧
      "a.txt 3 a9993e364706816aba3e25717850c26c9cd0d89d"
        = "a.txt" ++ " " ++ Nat.repr n ++ " " ++ chk1 ∧
      chk1.length = 40 ∧
      sha1Sum fsDemo (joinPath "src" "a.txt") = .ok chk2 ∧
      "a.txt: a9993e364706816aba3e25717850c26c9cd0d89d" = "a.txt" ++ ": " ++ chk2 ∧
      chk2.length = 40 := by
  obtain ⟨h1, h2⟩ := demo_workers
  cases hc : pcopyWorker "src" "dst" fsDemo "a.txt" with
  | error e => rw [hc] at h1; cases h1
  | ok r1 =>
    cases hs : psha1sumWorker "src" fsDemo "a.txt" with
    | error e => rw [hs] at h2; cases h2
    | ok r2 =>
      obtain ⟨l1, fs1⟩ := r1
      obtain ⟨l2, gs1⟩ := r2
      rw [hc] at h1
      rw [hs] at h2
      simp only [Except.map, Except.ok.injEq] at h1 h2
      subst h1 h2
      obtain ⟨⟨n, chk1, d1, hcopy, hline1, -, -, hl1, -⟩,
          ⟨chk2, d2, hsum, hline2, -, -, hl2, -⟩⟩ :=
        C8_result_line fsDemo fs1 fsDemo gs1 "src" "dst" "src" "a.txt" "a.txt" _ _ hc hs
      exact ⟨fs1, gs1, n, chk1, chk2, rfl, rfl, hcopy, hline1, hl1, hsum, hline2, hl2⟩

/-- Witness of C9: the names `a.txt` and `b.txt` under `src` and `dst`. -/
theorem C9_paths_distinct_witness :
    "a.txt" ≠ "b.txt" ∧ joinPath "src" "a.txt" ≠ joinPath "dst" "b.txt" ∧
      ∀ p, p ∈ pcopyPaths "src" "dst" "a.txt" → p ∉ pcopyPaths "src" "dst" "b.txt" := by
  have h := C9_paths_distinct "src" "dst" "a.txt" "b.txt" (by decide) (by decide) (by decide)
  exact ⟨by decide, h.2.2.1, h.2.2.2.1⟩

/-- Witness of C10: `src/a.txt` of `fsDemo` copied onto itself. -/
theorem C10_same_path_truncates_witness :
    fsDemo.node "src/a.txt" = some ⟨0o644, [97, 98, 99], [], none⟩ ∧
    copyAndSha1Sum fsDemo "src/a.txt" "src/a.txt"
      = .ok ((0, sha1Hex []), fsDemo.set "src/a.txt" ⟨0o644, [], [], none⟩) ∧
    pcopyWorker "src" "src" fsDemo "a.txt"
      = .ok ("a.txt 0 da39a3ee5e6b4b0d3255bfef95601890afd80709",
          fsDemo.set "src/a.txt" ⟨0o644, [], [], none⟩) := by
  have h := C10_same_path_truncates fsDemo "src/a.txt" "src/a.txt"
    ⟨0o644, [97, 98, 99], [], none⟩ rfl (by decide) (by decide)
  exact ⟨by decide, h.1, h.2.2.2.2 "src" "src" "a.txt" (by decide) (by decide)⟩

end PCopy
